import Mathlib

/-!
# Verification of `tools/roll_deps.py`

A shallow embedding of Skia's Chromium DEPS roll script.  Strings are
modelled as `List Char`; the two regular expressions of
`change_skia_deps` (`"skia_revision": "[0-9]*",` and
`"skia_hash": "[0-9a-f]*",`) are modelled by an explicit matcher, and
Python's `re.sub` (which replaces every non-overlapping occurrence,
scanning left to right) by `reSub`.  Effectful parts (git invocations,
the file system) are modelled as explicit state machines, assuming the
underlying outside invocations succeed unless stated otherwise.
-/

set_option autoImplicit false
set_option maxRecDepth 4000

namespace RollDeps

/-! ## Characters and Python string helpers -/

/-- The whitespace characters stripped by Python 2's `str.strip` family. -/
def pyWS (c : Char) : Bool :=
  c = ' ' || c = '\t' || c = '\n' || c = '\r' || c = '\x0b' || c = '\x0c'

/-- The character class `[0-9]` of the revision regex. -/
def isDigitCh (c : Char) : Bool :=
  decide ('0' ≤ c) && decide (c ≤ '9')

/-- The character class `[0-9a-f]` of the hash regex. -/
def isHexCh (c : Char) : Bool :=
  isDigitCh c || (decide ('a' ≤ c) && decide (c ≤ 'f'))

/-- Python `str.lstrip()`. -/
def lstripL (s : List Char) : List Char := s.dropWhile pyWS

/-- Python `str.rstrip()`. -/
def rstripL (s : List Char) : List Char := (s.reverse.dropWhile pyWS).reverse

/-- Python `str.strip()`, as used by `strip_output`. -/
def stripL (s : List Char) : List Char := rstripL (lstripL s)

/-- `message.split('\n')[0]`: the text up to the first newline. -/
def firstLineL (s : List Char) : List Char := s.takeWhile (fun c => c ≠ '\n')

/-- `branch_name(message)` from the source:
`message.lstrip().split('\n')[0].rstrip().replace(' ', '_')`. -/
def branch_name (message : List Char) : List Char :=
  (rstripL (firstLineL (lstripL message))).map (fun c => if c = ' ' then '_' else c)

/-- Decimal digits of a natural number, with explicit fuel
(fuel `n + 1` always suffices since the argument shrinks by `/ 10`). -/
def natDecGo : Nat → Nat → List Char → List Char
  | 0, _, acc => acc
  | f + 1, n, acc =>
    if n < 10 then Nat.digitChar n :: acc
    else natDecGo f (n / 10) (Nat.digitChar (n % 10) :: acc)

/-- Decimal representation of a natural number (Python `'%d' % n` for `n ≥ 0`). -/
def natDec (n : Nat) : List Char := natDecGo (n + 1) n []

/-- Python `'%d' % i` for an arbitrary int. -/
def intDec (i : Int) : List Char :=
  if i < 0 then '-' :: natDec i.natAbs else natDec i.toNat

/-- Python `str.split(',')`: splitting never drops empty pieces, so
`''.split(',') = ['']`. -/
def splitCommaL : List Char → List (List Char)
  | [] => [[]]
  | c :: cs =>
    if c = ',' then [] :: splitCommaL cs
    else
      match splitCommaL cs with
      | [] => [[c]]
      | p :: ps => (c :: p) :: ps

/-- `[bot for bot in options.bots.split(',') if bot]` from
`DepsRollConfig.__init__`. -/
def clBotList (bots : List Char) : List (List Char) :=
  (splitCommaL bots).filter (fun b => !b.isEmpty)

/-! ## The two regex patterns of `change_skia_deps`

Each pattern is a literal key, a (possibly empty) greedy run of a
character class, and the literal `",`.  Because `"` is in neither
class, greedy matching with no backtracking agrees with the regex. -/

/-- Literal part `"skia_revision": "` of the revision regex. -/
def revKeyL : List Char := ("\"skia_revision\": \"").data

/-- Literal part `"skia_hash": "` of the hash regex. -/
def hashKeyL : List Char := ("\"skia_hash\": \"").data

/-- The closing literal `",` shared by both regexes. -/
def qcL : List Char := ("\",").data

/-- `revKeyL` without its final quote character. -/
def revKeyHeadL : List Char := ("\"skia_revision\": ").data

/-- Match a literal: `matchLit p s = some r` iff `s = p ++ r`. -/
def matchLit : List Char → List Char → Option (List Char)
  | [], s => some s
  | _ :: _, [] => none
  | p :: ps, c :: cs => if c = p then matchLit ps cs else none

/-- Try to match `key ++ cls* ++ "\","` at the head of `s`; on success
return the remainder of `s` after the match. -/
def matchAt (key : List Char) (cls : Char → Bool) (s : List Char) : Option (List Char) :=
  match matchLit key s with
  | none => none
  | some r => matchLit qcL (r.dropWhile cls)

/-- A full match of the revision pattern: text matched when the digit
run is `d`. -/
def revFieldL (d : List Char) : List Char := revKeyL ++ d ++ qcL

/-- A full match of the hash pattern: text matched when the hex run is `x`. -/
def hashFieldL (x : List Char) : List Char := hashKeyL ++ x ++ qcL

/-- `'"skia_revision": "%d",' % revision` from the source. -/
def revReplL (revision : Int) : List Char := revKeyL ++ intDec revision ++ qcL

/-- `'"skia_hash": "%s",' % git_hash` from the source. -/
def hashReplL (git_hash : List Char) : List Char := hashKeyL ++ git_hash ++ qcL

/-! ## `re.sub`: replace every non-overlapping occurrence -/

/-- Fueled worker for `reSub`; fuel at least the length of the string
always suffices because a match consumes at least the two characters
of the closing `",`. -/
def reSubGo (key : List Char) (cls : Char → Bool) (repl : List Char) :
    Nat → List Char → List Char
  | _, [] => []
  | 0, s => s
  | fuel + 1, c :: cs =>
    match matchAt key cls (c :: cs) with
    | some rest => repl ++ reSubGo key cls repl fuel rest
    | none => c :: reSubGo key cls repl fuel cs

/-- Python's `pattern.sub(repl, s)`: scan left to right, replacing every
non-overlapping match and continuing after a replacement. -/
def reSub (key : List Char) (cls : Char → Bool) (repl : List Char) (s : List Char) :
    List Char :=
  reSubGo key cls repl s.length s

/-- One line of `change_skia_deps`'s rewrite loop:
`line = deps_regex_rev.sub(deps_regex_rev_repl, line)` then
`line = deps_regex_hash.sub(deps_regex_hash_repl, line)`. -/
def processLine (revision : Int) (git_hash : List Char) (line : List Char) : List Char :=
  reSub hashKeyL isHexCh (hashReplL git_hash)
    (reSub revKeyL isDigitCh (revReplL revision) line)

/-- The pure content transformation of `change_skia_deps`, on a file
given as its list of lines (Python iterates the input line by line). -/
def change_skia_deps (revision : Int) (git_hash : List Char)
    (file : List (List Char)) : List (List Char) :=
  file.map (processLine revision git_hash)

/-! ## Basic lemmas about the matcher -/

theorem matchLit_eq_some : ∀ {p s r : List Char}, matchLit p s = some r ↔ s = p ++ r := by
  intro p
  induction p with
  | nil =>
    intro s r
    simp only [matchLit, List.nil_append, Option.some.injEq]
  | cons q ps ih =>
    intro s r
    cases s with
    | nil => simp [matchLit]
    | cons c cs =>
      simp only [matchLit]
      by_cases hc : c = q
      · subst hc
        simp only [if_pos rfl, List.cons_append, List.cons.injEq, true_and]
        exact ih
      · rw [if_neg hc]
        simp only [List.cons_append, List.cons.injEq]
        constructor
        · intro h; exact absurd h (by simp)
        · intro h; exact absurd h.1 hc

theorem matchLit_self (p t : List Char) : matchLit p (p ++ t) = some t :=
  matchLit_eq_some.mpr rfl

theorem matchLit_nil_right {p : List Char} (h : p ≠ []) : matchLit p [] = none := by
  cases p with
  | nil => exact absurd rfl h
  | cons q ps => rfl

theorem matchLit_head_ne {a b : Char} {p s : List Char} (h : b ≠ a) :
    matchLit (a :: p) (b :: s) = none := by
  simp [matchLit, h]

theorem matchLit_length {p s r : List Char} (h : matchLit p s = some r) :
    r.length + p.length = s.length := by
  have := matchLit_eq_some.mp h
  subst this
  simp [List.length_append, Nat.add_comm]

theorem dropWhile_length_le (f : Char → Bool) :
    ∀ l : List Char, (l.dropWhile f).length ≤ l.length := by
  intro l
  induction l with
  | nil => simp [List.dropWhile]
  | cons c cs ih =>
    simp only [List.dropWhile]
    cases f c with
    | true => exact Nat.le_trans ih (Nat.le_succ _)
    | false => exact Nat.le_refl _

theorem matchAt_length {key : List Char} {cls : Char → Bool} {s rest : List Char}
    (h : matchAt key cls s = some rest) : rest.length < s.length := by
  unfold matchAt at h
  cases hml : matchLit key s with
  | none => rw [hml] at h; exact absurd h (by simp)
  | some r =>
    rw [hml] at h
    have h1 : r.length ≤ s.length := by
      have := matchLit_length hml
      omega
    have h2 : (r.dropWhile cls).length ≤ r.length := dropWhile_length_le cls r
    have h3 : rest.length + qcL.length = (r.dropWhile cls).length := matchLit_length h
    have h4 : qcL.length = 2 := rfl
    omega

theorem matchAt_nil {key : List Char} {cls : Char → Bool} (h : key ≠ []) :
    matchAt key cls [] = none := by
  unfold matchAt
  rw [matchLit_nil_right h]

/-! ## Unfolding equations for `reSub` -/

theorem reSubGo_fuel (key : List Char) (cls : Char → Bool) (repl : List Char) :
    ∀ f₁ f₂ s, s.length ≤ f₁ → s.length ≤ f₂ →
      reSubGo key cls repl f₁ s = reSubGo key cls repl f₂ s := by
  intro f₁
  induction f₁ with
  | zero =>
    intro f₂ s h1 _
    have : s = [] := List.eq_nil_of_length_eq_zero (Nat.le_zero.mp h1)
    subst this
    cases f₂ <;> rfl
  | succ f ih =>
    intro f₂ s h1 h2
    cases s with
    | nil => cases f₂ <;> rfl
    | cons c cs =>
      cases f₂ with
      | zero => simp at h2
      | succ f₂' =>
        have h1' : cs.length + 1 ≤ f + 1 := by simpa using h1
        have h2' : cs.length + 1 ≤ f₂' + 1 := by simpa using h2
        cases hm : matchAt key cls (c :: cs) with
        | some rest =>
          have hlen : rest.length < cs.length + 1 := by
            simpa using matchAt_length hm
          simp only [reSubGo, hm]
          rw [ih f₂' rest (by omega) (by omega)]
        | none =>
          simp only [reSubGo, hm]
          rw [ih f₂' cs (by omega) (by omega)]

theorem reSub_nil (key : List Char) (cls : Char → Bool) (repl : List Char) :
    reSub key cls repl [] = [] := rfl

theorem reSub_cons_some {key : List Char} {cls : Char → Bool} {repl : List Char}
    {c : Char} {cs rest : List Char} (h : matchAt key cls (c :: cs) = some rest) :
    reSub key cls repl (c :: cs) = repl ++ reSub key cls repl rest := by
  unfold reSub
  simp only [List.length_cons, reSubGo, h]
  have hlen : rest.length < cs.length + 1 := by simpa using matchAt_length h
  rw [reSubGo_fuel key cls repl cs.length rest.length rest (by omega) (Nat.le_refl _)]

theorem reSub_cons_none {key : List Char} {cls : Char → Bool} {repl : List Char}
    {c : Char} {cs : List Char} (h : matchAt key cls (c :: cs) = none) :
    reSub key cls repl (c :: cs) = c :: reSub key cls repl cs := by
  unfold reSub
  simp only [List.length_cons, reSubGo, h]

/-! ## Append lemmas for the matcher -/

theorem matchLit_fit {p w : List Char} (t : List Char) (h : p.length ≤ w.length) :
    matchLit p (w ++ t) = (matchLit p w).map (fun r => r ++ t) := by
  cases hw : matchLit p w with
  | some r =>
    have hw' : w = p ++ r := matchLit_eq_some.mp hw
    subst hw'
    rw [List.append_assoc, matchLit_self]
    rfl
  | none =>
    cases hwt : matchLit p (w ++ t) with
    | none => rfl
    | some R =>
      exfalso
      have heq : w ++ t = p ++ R := matchLit_eq_some.mp hwt
      have htake : w.take p.length = p := by
        have h1 : (w ++ t).take p.length = w.take p.length :=
          List.take_append_of_le_length h
        rw [heq, List.take_left' rfl] at h1
        exact h1.symm
      have : matchLit p w = some (w.drop p.length) := by
        apply matchLit_eq_some.mpr
        conv_lhs => rw [← List.take_append_drop p.length w]
        rw [htake]
      rw [this] at hw
      cases hw

theorem matchLit_mid {p w : List Char} (t : List Char)
    (hpre : w = p.take w.length) :
    matchLit p (w ++ t) = matchLit (p.drop w.length) t := by
  have hp : p = w ++ p.drop w.length := by
    conv_lhs => rw [← List.take_append_drop w.length p]
    rw [← hpre]
  cases ht : matchLit (p.drop w.length) t with
  | some r =>
    have ht' : t = p.drop w.length ++ r := matchLit_eq_some.mp ht
    apply matchLit_eq_some.mpr
    rw [ht']
    conv_rhs => rw [hp]
    rw [List.append_assoc]
  | none =>
    cases hwt : matchLit p (w ++ t) with
    | none => rfl
    | some R =>
      exfalso
      have heq : w ++ t = p ++ R := matchLit_eq_some.mp hwt
      rw [hp, List.append_assoc] at heq
      have : t = p.drop w.length ++ R := List.append_cancel_left heq
      rw [matchLit_eq_some.mpr this] at ht
      cases ht

/-- A character run that is all inside the class, followed by a stopper,
is consumed exactly by `dropWhile`. -/
theorem dropWhile_all_stop {f : Char → Bool} {x : List Char}
    (hx : ∀ c ∈ x, f c = true) {c : Char} (hc : f c = false) (t : List Char) :
    (x ++ c :: t).dropWhile f = c :: t := by
  induction x with
  | nil => simp [List.dropWhile, hc]
  | cons y ys ih =>
    have hy : f y = true := hx y (by simp)
    simp only [List.cons_append, List.dropWhile, hy]
    exact ih (fun d hd => hx d (by simp [hd]))

theorem qcL_eq : qcL = '"' :: ',' :: [] := rfl

theorem revKeyL_length : revKeyL.length = 18 := rfl

theorem hashKeyL_length : hashKeyL.length = 14 := rfl

/-- The revision pattern matches its own full match text, leaving the tail. -/
theorem matchAt_revField {d : List Char} (hd : ∀ c ∈ d, isDigitCh c = true)
    (t : List Char) : matchAt revKeyL isDigitCh (revFieldL d ++ t) = some t := by
  unfold matchAt revFieldL
  rw [List.append_assoc, List.append_assoc, matchLit_self]
  show matchLit qcL (List.dropWhile isDigitCh (d ++ '"' :: ',' :: t)) = some t
  rw [dropWhile_all_stop hd (by decide) (',' :: t)]
  exact matchLit_self qcL t

/-- The hash pattern matches its own full match text, leaving the tail. -/
theorem matchAt_hashField {x : List Char} (hx : ∀ c ∈ x, isHexCh c = true)
    (t : List Char) : matchAt hashKeyL isHexCh (hashFieldL x ++ t) = some t := by
  unfold matchAt hashFieldL
  rw [List.append_assoc, List.append_assoc, matchLit_self]
  show matchLit qcL (List.dropWhile isHexCh (x ++ '"' :: ',' :: t)) = some t
  rw [dropWhile_all_stop hx (by decide) (',' :: t)]
  exact matchLit_self qcL t

theorem matchAt_drop_ge {key : List Char} {cls : Char → Bool} (hk : key ≠ [])
    {s : List Char} {k : Nat} (h : s.length ≤ k) :
    matchAt key cls (s.drop k) = none := by
  rw [List.drop_eq_nil_of_le h]
  exact matchAt_nil hk

/-! ## `reSub` on match-free and spliced strings -/

/-- A string with no match at any position is left unchanged
(supports claim C3). -/
theorem reSub_eq_self {key : List Char} {cls : Char → Bool} {repl : List Char} :
    ∀ {s : List Char}, (∀ k, k < s.length → matchAt key cls (s.drop k) = none) →
      reSub key cls repl s = s := by
  intro s
  induction s with
  | nil => intro _; rfl
  | cons c cs ih =>
    intro h
    have h0 : matchAt key cls (c :: cs) = none := by simpa using h 0 (by simp)
    rw [reSub_cons_none h0, ih ?_]
    intro k hk
    have := h (k + 1) (by simpa using Nat.succ_lt_succ hk)
    simpa using this

/-- Splicing: if `m ++ b` matches exactly `m` and nothing matches
inside `a`, then `reSub` keeps `a`, replaces `m`, and recurses on `b`. -/
theorem reSub_splice {key : List Char} {cls : Char → Bool} {repl : List Char} :
    ∀ {a m b : List Char},
      matchAt key cls (m ++ b) = some b →
      (∀ k, k < a.length → matchAt key cls ((a ++ (m ++ b)).drop k) = none) →
      reSub key cls repl (a ++ m ++ b) = a ++ repl ++ reSub key cls repl b := by
  intro a
  induction a with
  | nil =>
    intro m b hm _
    have hmne : m ≠ [] := by
      intro hnil
      subst hnil
      simp only [List.nil_append] at hm
      have := matchAt_length hm
      omega
    cases m with
    | nil => exact absurd rfl hmne
    | cons c cs =>
      simp only [List.nil_append]
      have hm' : matchAt key cls (c :: (cs ++ b)) = some b := by
        simpa using hm
      rw [show (c :: cs) ++ b = c :: (cs ++ b) from rfl, reSub_cons_some hm']
  | cons x a' ih =>
    intro m b hm ha
    have h0 : matchAt key cls (x :: (a' ++ (m ++ b))) = none := by
      simpa using ha 0 (by simp)
    rw [show (x :: a') ++ m ++ b = x :: (a' ++ (m ++ b)) by simp, reSub_cons_none h0]
    have ha' : ∀ k, k < a'.length → matchAt key cls ((a' ++ (m ++ b)).drop k) = none := by
      intro k hk
      have := ha (k + 1) (by simpa using Nat.succ_lt_succ hk)
      simpa using this
    have := ih hm ha'
    rw [show a' ++ m ++ b = a' ++ (m ++ b) by simp] at this
    rw [this]
    simp

/-! ## Invariance of hash-pattern match failure under digit-run changes

`change_skia_deps` applies the hash substitution to the output of the
revision substitution.  The lemmas below show that replacing the digit
run of a revision field cannot create a hash-pattern match, because
every candidate position is separated from the digit run by the final
quote of `"skia_revision": "` (which is not a hex character). -/

theorem hashKeyL_cons : hashKeyL = '"' :: ("skia_hash\": \"").data := rfl

theorem matchLit_hashKey_head {e : Char} (he : e ≠ '"') (z : List Char) :
    matchLit hashKeyL (e :: z) = none := by
  rw [hashKeyL_cons]
  exact matchLit_head_ne he

theorem matchAt_hashKey_head {e : Char} (he : e ≠ '"') (z : List Char) :
    matchAt hashKeyL isHexCh (e :: z) = none := by
  unfold matchAt
  rw [matchLit_hashKey_head he]

theorem digit_ne_quote {c : Char} (h : isDigitCh c = true) : c ≠ '"' := by
  intro hc
  subst hc
  exact absurd h (by decide)

theorem digit_ne_comma {c : Char} (h : isDigitCh c = true) : c ≠ ',' := by
  intro hc
  subst hc
  exact absurd h (by decide)

theorem digit_ne_s {c : Char} (h : isDigitCh c = true) : c ≠ 's' := by
  intro hc
  subst hc
  exact absurd h (by decide)

/-- Dropping hex characters from a string that ends in a quote leaves a
string that still ends in that quote (the quote is not hex). -/
theorem dropWhile_concat_quote :
    ∀ y : List Char, ∃ y', List.dropWhile isHexCh (y ++ '"' :: []) = y' ++ '"' :: [] := by
  intro y
  induction y with
  | nil => exact ⟨[], rfl⟩
  | cons c cs ih =>
    cases hc : isHexCh c with
    | true =>
      obtain ⟨y', hy'⟩ := ih
      exact ⟨y', by simp [List.dropWhile, hc, hy']⟩
    | false =>
      exact ⟨c :: cs, by simp [List.dropWhile, hc]⟩

/-- Evaluate the hash matcher on `w ++ X` when the key matches the front
of `w` and the remainder of `w` ends in a quote: the verdict is a
literal match of `",` against a string that still starts inside `w`. -/
theorem matchAt_eval_quote {w r₀ y₁ y' : List Char}
    (hw : matchLit hashKeyL w = some r₀) (hr : r₀ = y₁ ++ '"' :: [])
    (hdw : List.dropWhile isHexCh (y₁ ++ '"' :: []) = y' ++ '"' :: [])
    (X : List Char) :
    matchAt hashKeyL isHexCh (w ++ X) = matchLit qcL ((y' ++ '"' :: []) ++ X) := by
  have h14 : hashKeyL.length ≤ w.length := by
    have := matchLit_length hw
    omega
  unfold matchAt
  rw [matchLit_fit X h14, hw]
  show matchLit qcL (List.dropWhile isHexCh (r₀ ++ X)) = _
  rw [hr, List.append_assoc, ← List.append_assoc y₁, List.dropWhile_append, hdw]
  simp

theorem matchAt_fit_none {w : List Char} (h14 : hashKeyL.length ≤ w.length)
    (hw : matchLit hashKeyL w = none) (X : List Char) :
    matchAt hashKeyL isHexCh (w ++ X) = none := by
  unfold matchAt
  rw [matchLit_fit X h14, hw]
  rfl

/-- No hash-pattern match can start inside the trailing part of
`"skia_revision": "` when it is followed by a nonempty digit run. -/
theorem matchAt_hash_revKey_tail (j : Nat) (hj : j < 18) (D v : List Char)
    (hD : D ≠ []) (hDd : ∀ c ∈ D, isDigitCh c = true) :
    matchAt hashKeyL isHexCh (revKeyL.drop j ++ (D ++ v)) = none := by
  cases D with
  | nil => exact absurd rfl hD
  | cons e es =>
    have he : isDigitCh e = true := hDd e (by simp)
    interval_cases j
    case «17» =>
      show matchAt hashKeyL isHexCh ('"' :: (e :: (es ++ v))) = none
      unfold matchAt
      have h1 : matchLit hashKeyL ('"' :: (e :: (es ++ v)))
          = matchLit ('s' :: (("kia_hash\": \"").data)) (e :: (es ++ v)) := rfl
      rw [h1, matchLit_head_ne (digit_ne_s he)]
    all_goals rfl

theorem drop_append_ge {α : Type} {l₁ l₂ : List α} {k : Nat} (h : l₁.length ≤ k) :
    (l₁ ++ l₂).drop k = l₂.drop (k - l₁.length) := by
  conv_lhs => rw [show k = l₁.length + (k - l₁.length) from by omega]
  exact List.drop_append (k - l₁.length)

theorem qcL_length : qcL.length = 2 := rfl

theorem revKeyHeadL_length : revKeyHeadL.length = 17 := rfl

theorem revKeyL_decomp : revKeyL = revKeyHeadL ++ '"' :: [] := rfl

/-- Replacing the (nonempty, all-digit) digit run of a revision field
cannot create a hash-pattern match anywhere in the line: every position
of `a ++ "skia_revision": "D₂", ++ b` is match-free for the hash
pattern provided every position was match-free with the original run
`D₁`. -/
theorem hash_nomatch_transport (a b D₁ D₂ : List Char)
    (hD₂d : ∀ c ∈ D₂, isDigitCh c = true) (hD₂ : D₂ ≠ [])
    (H : ∀ k, k < ((a ++ revKeyL) ++ (D₁ ++ (qcL ++ b))).length →
        matchAt hashKeyL isHexCh (((a ++ revKeyL) ++ (D₁ ++ (qcL ++ b))).drop k) = none) :
    ∀ k, k < ((a ++ revKeyL) ++ (D₂ ++ (qcL ++ b))).length →
      matchAt hashKeyL isHexCh (((a ++ revKeyL) ++ (D₂ ++ (qcL ++ b))).drop k) = none := by
  intro k hk
  by_cases hka : k < a.length
  · -- The position is inside `a`: any match crossing into the revision
    -- key would have to cross its final quote, which is not hex.
    have hseg : ∀ Z : List Char,
        (a ++ revKeyL) ++ Z = (a ++ revKeyHeadL) ++ ('"' :: Z) := by
      intro Z
      rw [revKeyL_decomp]
      simp
    have hk' : k ≤ (a ++ revKeyHeadL).length := by
      simp only [List.length_append]
      omega
    have hdropS : ∀ Z : List Char,
        ((a ++ revKeyHeadL) ++ ('"' :: Z)).drop k = (a ++ revKeyHeadL).drop k ++ ('"' :: Z) :=
      fun Z => List.drop_append_of_le_length hk'
    set y₀ := (a ++ revKeyHeadL).drop k with hy₀def
    have hcons : ∀ Z : List Char, y₀ ++ ('"' :: Z) = (y₀ ++ ('"' :: [])) ++ Z := by
      intro Z
      simp
    have hy₀len : 14 ≤ y₀.length := by
      rw [hy₀def, List.length_drop]
      simp only [List.length_append, revKeyHeadL_length]
      omega
    have hw14 : hashKeyL.length ≤ (y₀ ++ ('"' :: [])).length := by
      rw [hashKeyL_length]
      simp only [List.length_append]
      omega
    cases hml : matchLit hashKeyL (y₀ ++ ('"' :: [])) with
    | none =>
      rw [hseg, hdropS, hcons]
      exact matchAt_fit_none hw14 hml _
    | some r₀ =>
      have hr : r₀ = y₀.drop 14 ++ ('"' :: []) := by
        have hw' : y₀ ++ ('"' :: []) = hashKeyL ++ r₀ := matchLit_eq_some.mp hml
        have hdr : (y₀ ++ ('"' :: [])).drop 14 = r₀ := by
          rw [hw']
          exact List.drop_left' hashKeyL_length
        rw [← hdr, List.drop_append_of_le_length hy₀len]
      obtain ⟨y', hdw⟩ := dropWhile_concat_quote (y₀.drop 14)
      have heval : ∀ X : List Char, matchAt hashKeyL isHexCh ((y₀ ++ ('"' :: [])) ++ X)
          = matchLit qcL ((y' ++ ('"' :: [])) ++ X) :=
        fun X => matchAt_eval_quote hml hr hdw X
      rw [hseg, hdropS, hcons, heval]
      cases y' with
      | nil =>
        obtain ⟨e, es, rfl⟩ := List.exists_cons_of_ne_nil hD₂
        have he := hD₂d e (by simp)
        show matchLit (',' :: ([] : List Char)) (e :: (es ++ (qcL ++ b))) = none
        exact matchLit_head_ne (digit_ne_comma he)
      | cons z zs =>
        have h2 : qcL.length ≤ ((z :: zs) ++ ('"' :: [])).length := by
          rw [qcL_length]
          simp
        rw [matchLit_fit _ h2]
        cases hq : matchLit qcL ((z :: zs) ++ ('"' :: [])) with
        | none => rfl
        | some q =>
          exfalso
          have hk1 : k < ((a ++ revKeyL) ++ (D₁ ++ (qcL ++ b))).length := by
            simp only [List.length_append, revKeyL_length]
            omega
          have hH := H k hk1
          rw [hseg, hdropS, hcons, heval, matchLit_fit _ h2, hq] at hH
          simp at hH
  · by_cases hk3 : k < (a ++ revKeyL).length
    · -- Inside `"skia_revision": "` itself.
      have hj : k - a.length < 18 := by
        simp only [List.length_append, revKeyL_length] at hk3
        omega
      have hdrop : ((a ++ revKeyL) ++ (D₂ ++ (qcL ++ b))).drop k
          = revKeyL.drop (k - a.length) ++ (D₂ ++ (qcL ++ b)) := by
        rw [List.append_assoc, drop_append_ge (by omega)]
        exact List.drop_append_of_le_length (by rw [revKeyL_length]; omega)
      rw [hdrop]
      exact matchAt_hash_revKey_tail _ hj D₂ (qcL ++ b) hD₂ hD₂d
    · push_neg at hka hk3
      have hlen : (a ++ revKeyL).length = a.length + 18 := by
        simp [List.length_append, revKeyL_length]
      have hqb : (qcL ++ b).length = 2 + b.length := by
        simp [List.length_append, qcL_length]
      have hktot := hk
      simp only [List.length_append] at hktot
      by_cases hk2 : k < (a ++ revKeyL).length + D₂.length
      · -- Inside the digit run: digits are never a quote, and the hash
        -- key starts with a quote.
        have hdrop : ((a ++ revKeyL) ++ (D₂ ++ (qcL ++ b))).drop k
            = D₂.drop (k - (a ++ revKeyL).length) ++ (qcL ++ b) := by
          rw [drop_append_ge hk3]
          exact List.drop_append_of_le_length (by omega)
        rw [hdrop]
        have hjlt : k - (a ++ revKeyL).length < D₂.length := by omega
        cases hDdrop : D₂.drop (k - (a ++ revKeyL).length) with
        | nil =>
          exfalso
          have hnil := congrArg List.length hDdrop
          rw [List.length_drop] at hnil
          simp only [List.length_nil] at hnil
          omega
        | cons e es =>
          have he : e ∈ D₂ := List.drop_subset _ D₂ (by rw [hDdrop]; simp)
          exact matchAt_hashKey_head (digit_ne_quote (hD₂d e he)) _
      · -- After the digit run: the tails agree, shifted by the length
        -- difference of the two runs.
        push_neg at hk2
        have hdrop2 : ((a ++ revKeyL) ++ (D₂ ++ (qcL ++ b))).drop k
            = (qcL ++ b).drop (k - (a ++ revKeyL).length - D₂.length) := by
          rw [drop_append_ge hk3, drop_append_ge (by omega)]
        have htot2 : ((a ++ revKeyL) ++ (D₂ ++ (qcL ++ b))).length
            = (a ++ revKeyL).length + D₂.length + (qcL ++ b).length := by
          simp only [List.length_append]
          omega
        have htot1 : ((a ++ revKeyL) ++ (D₁ ++ (qcL ++ b))).length
            = (a ++ revKeyL).length + D₁.length + (qcL ++ b).length := by
          simp only [List.length_append]
          omega
        have hjb : k - (a ++ revKeyL).length - D₂.length < (qcL ++ b).length := by
          omega
        have hk1 : (a ++ revKeyL).length + D₁.length
              + (k - (a ++ revKeyL).length - D₂.length)
            < ((a ++ revKeyL) ++ (D₁ ++ (qcL ++ b))).length := by
          omega
        have hH := H _ hk1
        have hdrop1 : ((a ++ revKeyL) ++ (D₁ ++ (qcL ++ b))).drop
              ((a ++ revKeyL).length + D₁.length + (k - (a ++ revKeyL).length - D₂.length))
            = (qcL ++ b).drop (k - (a ++ revKeyL).length - D₂.length) := by
          rw [drop_append_ge (by omega), drop_append_ge (by omega)]
          congr 1
          omega
        rw [hdrop1] at hH
        rw [hdrop2]
        exact hH

/-! ## Digit facts about the decimal formatter -/

theorem digitChar_isDigit : ∀ m, m < 10 → isDigitCh (Nat.digitChar m) = true := by decide

theorem natDecGo_digits :
    ∀ (f n : Nat) (acc : List Char), (∀ c ∈ acc, isDigitCh c = true) →
      ∀ c ∈ natDecGo f n acc, isDigitCh c = true := by
  intro f
  induction f with
  | zero => intro n acc hacc; exact hacc
  | succ f ih =>
    intro n acc hacc c hc
    simp only [natDecGo] at hc
    by_cases hn : n < 10
    · rw [if_pos hn] at hc
      rcases List.mem_cons.mp hc with h | h
      · rw [h]; exact digitChar_isDigit n hn
      · exact hacc c h
    · rw [if_neg hn] at hc
      refine ih (n / 10) _ ?_ c hc
      intro c' hc'
      rcases List.mem_cons.mp hc' with h | h
      · rw [h]; exact digitChar_isDigit _ (Nat.mod_lt n (by omega))
      · exact hacc c' h

theorem natDec_digits (n : Nat) : ∀ c ∈ natDec n, isDigitCh c = true :=
  natDecGo_digits (n + 1) n [] (by intro c hc; cases hc)

theorem natDecGo_acc_ne :
    ∀ (f n : Nat) (acc : List Char), acc ≠ [] → natDecGo f n acc ≠ [] := by
  intro f
  induction f with
  | zero => intro n acc hacc; exact hacc
  | succ f ih =>
    intro n acc hacc
    simp only [natDecGo]
    by_cases hn : n < 10
    · rw [if_pos hn]; exact List.cons_ne_nil _ _
    · rw [if_neg hn]; exact ih (n / 10) _ (List.cons_ne_nil _ _)

theorem natDec_ne_nil (n : Nat) : natDec n ≠ [] := by
  unfold natDec
  simp only [natDecGo]
  by_cases hn : n < 10
  · rw [if_pos hn]; exact List.cons_ne_nil _ _
  · rw [if_neg hn]; exact natDecGo_acc_ne n (n / 10) _ (List.cons_ne_nil _ _)

theorem intDec_nonneg (revision : Int) (h : 0 ≤ revision) :
    intDec revision = natDec revision.toNat := by
  unfold intDec
  rw [if_neg (by omega)]

theorem intDec_digits {revision : Int} (h : 0 ≤ revision) :
    ∀ c ∈ intDec revision, isDigitCh c = true := by
  rw [intDec_nonneg revision h]
  exact natDec_digits revision.toNat

theorem intDec_ne_nil {revision : Int} (h : 0 ≤ revision) : intDec revision ≠ [] := by
  rw [intDec_nonneg revision h]
  exact natDec_ne_nil revision.toNat

/-! ## Per-line behaviour of `change_skia_deps` -/

theorem revFieldL_length (d : List Char) : (revFieldL d).length = d.length + 20 := by
  simp only [revFieldL, List.length_append, revKeyL_length, qcL_length]
  omega

theorem hashFieldL_length (x : List Char) : (hashFieldL x).length = x.length + 16 := by
  simp only [hashFieldL, List.length_append, hashKeyL_length, qcL_length]
  omega

/-- A line on which neither pattern matches at any position is passed
through byte-identically. -/
theorem processLine_nomatch {revision : Int} {git_hash line : List Char}
    (hrev : ∀ k, k < line.length → matchAt revKeyL isDigitCh (line.drop k) = none)
    (hhash : ∀ k, k < line.length → matchAt hashKeyL isHexCh (line.drop k) = none) :
    processLine revision git_hash line = line := by
  unfold processLine
  rw [reSub_eq_self hrev, reSub_eq_self hhash]

/-- The no-match property transfers to the part of a line after a
front part `u`. -/
theorem nomatch_drop_tail {key : List Char} {cls : Char → Bool} {u s : List Char}
    (h : ∀ k, k < (u ++ s).length → matchAt key cls ((u ++ s).drop k) = none) :
    ∀ k, k < s.length → matchAt key cls (s.drop k) = none := by
  intro k hk
  have h1 : (u ++ s).drop (u.length + k) = s.drop k := by
    rw [drop_append_ge (by omega)]
    congr 1
    omega
  have h2 := h (u.length + k) (by simp only [List.length_append]; omega)
  rw [h1] at h2
  exact h2

/-- The revision line: exactly one revision field and no hash field.
`processLine` replaces the digit run by `'%d' % revision` and changes
nothing else (including under the subsequent hash substitution). -/
theorem processLine_revline {revision : Int} {git_hash a b d : List Char}
    (hrev0 : 0 ≤ revision)
    (hd : ∀ c ∈ d, isDigitCh c = true)
    (hRevOnce : ∀ k, k < (a ++ (revFieldL d ++ b)).length → k ≠ a.length →
        matchAt revKeyL isDigitCh ((a ++ (revFieldL d ++ b)).drop k) = none)
    (hNoHashI : ∀ k, k < (a ++ (revFieldL d ++ b)).length →
        matchAt hashKeyL isHexCh ((a ++ (revFieldL d ++ b)).drop k) = none) :
    processLine revision git_hash (a ++ (revFieldL d ++ b))
      = a ++ (revReplL revision ++ b) := by
  have hfl := revFieldL_length d
  have hlen : (a ++ (revFieldL d ++ b)).length
      = a.length + ((revFieldL d).length + b.length) := by
    simp only [List.length_append]
  -- step 1: the revision substitution replaces the unique field
  have hm : matchAt revKeyL isDigitCh (revFieldL d ++ b) = some b := matchAt_revField hd b
  have ha : ∀ k, k < a.length →
      matchAt revKeyL isDigitCh ((a ++ (revFieldL d ++ b)).drop k) = none := by
    intro k hk
    exact hRevOnce k (by omega) (by omega)
  have hb : ∀ k, k < b.length → matchAt revKeyL isDigitCh (b.drop k) = none := by
    intro k hk
    have h1 : (a ++ (revFieldL d ++ b)).drop (a.length + ((revFieldL d).length + k))
        = b.drop k := by
      rw [drop_append_ge (by omega), drop_append_ge (by omega)]
      congr 1
      omega
    have h2 := hRevOnce (a.length + ((revFieldL d).length + k)) (by omega) (by omega)
    rw [h1] at h2
    exact h2
  have hstep1 : reSub revKeyL isDigitCh (revReplL revision) (a ++ (revFieldL d ++ b))
      = a ++ (revReplL revision ++ b) := by
    rw [show a ++ (revFieldL d ++ b) = a ++ revFieldL d ++ b from
      (List.append_assoc a (revFieldL d) b).symm]
    rw [reSub_splice hm ha]
    rw [reSub_eq_self hb, List.append_assoc]
  -- step 2: the hash substitution finds no match on the rewritten line
  have hEq1 : a ++ (revFieldL d ++ b) = (a ++ revKeyL) ++ (d ++ (qcL ++ b)) := by
    simp [revFieldL, List.append_assoc]
  have hEq2 : a ++ (revReplL revision ++ b)
      = (a ++ revKeyL) ++ (intDec revision ++ (qcL ++ b)) := by
    simp [revReplL, List.append_assoc]
  have hH : ∀ k, k < ((a ++ revKeyL) ++ (d ++ (qcL ++ b))).length →
      matchAt hashKeyL isHexCh (((a ++ revKeyL) ++ (d ++ (qcL ++ b))).drop k) = none := by
    rw [← hEq1]
    exact hNoHashI
  have hT := hash_nomatch_transport a b d (intDec revision)
    (intDec_digits hrev0) (intDec_ne_nil hrev0) hH
  unfold processLine
  rw [hstep1, hEq2, reSub_eq_self hT, ← hEq2]

/-- The hash line: exactly one hash field and no revision field.
`processLine` replaces the hex run by the provided hash and changes
nothing else. -/
theorem processLine_hashline {revision : Int} {git_hash a' b' x : List Char}
    (hx : ∀ c ∈ x, isHexCh c = true)
    (hHashOnce : ∀ k, k < (a' ++ (hashFieldL x ++ b')).length → k ≠ a'.length →
        matchAt hashKeyL isHexCh ((a' ++ (hashFieldL x ++ b')).drop k) = none)
    (hNoRevJ : ∀ k, k < (a' ++ (hashFieldL x ++ b')).length →
        matchAt revKeyL isDigitCh ((a' ++ (hashFieldL x ++ b')).drop k) = none) :
    processLine revision git_hash (a' ++ (hashFieldL x ++ b'))
      = a' ++ (hashReplL git_hash ++ b') := by
  have hfl := hashFieldL_length x
  have hlen : (a' ++ (hashFieldL x ++ b')).length
      = a'.length + ((hashFieldL x).length + b'.length) := by
    simp only [List.length_append]
  have hm : matchAt hashKeyL isHexCh (hashFieldL x ++ b') = some b' :=
    matchAt_hashField hx b'
  have ha : ∀ k, k < a'.length →
      matchAt hashKeyL isHexCh ((a' ++ (hashFieldL x ++ b')).drop k) = none := by
    intro k hk
    exact hHashOnce k (by omega) (by omega)
  have hb : ∀ k, k < b'.length → matchAt hashKeyL isHexCh (b'.drop k) = none := by
    intro k hk
    have h1 : (a' ++ (hashFieldL x ++ b')).drop (a'.length + ((hashFieldL x).length + k))
        = b'.drop k := by
      rw [drop_append_ge (by omega), drop_append_ge (by omega)]
      congr 1
      omega
    have h2 := hHashOnce (a'.length + ((hashFieldL x).length + k)) (by omega) (by omega)
    rw [h1] at h2
    exact h2
  unfold processLine
  rw [reSub_eq_self hNoRevJ]
  rw [show a' ++ (hashFieldL x ++ b') = a' ++ hashFieldL x ++ b' from
    (List.append_assoc a' (hashFieldL x) b').symm]
  rw [reSub_splice hm ha]
  rw [reSub_eq_self hb, List.append_assoc]

/-- C3: a line of the manifest that matches neither the revision-key
pattern nor the hash-key pattern is written to the output
byte-identically by the Manifest Editor. -/
theorem claim_C3 (revision : Int) (git_hash line : List Char)
    (hrev : ∀ k, k < line.length → matchAt revKeyL isDigitCh (line.drop k) = none)
    (hhash : ∀ k, k < line.length → matchAt hashKeyL isHexCh (line.drop k) = none) :
    processLine revision git_hash line = line :=
  processLine_nomatch hrev hhash

theorem claim_C3_witness :
    processLine 12345 (("deadbeef").data) (("  \"sauce\": \"ab12\",").data)
      = ("  \"sauce\": \"ab12\",").data :=
  claim_C3 12345 (("deadbeef").data) (("  \"sauce\": \"ab12\",").data)
    (by decide) (by decide)

/-- C4, counterexample: the claim says only the first field matching the
revision pattern on a line is replaced and further occurrences are left
unchanged.  On the line `"skia_revision": "1","skia_revision": "2",`
with revision 9 the code (Python `re.sub` with default count 0)
replaces both occurrences, not only the first. -/
theorem claim_C4_counterexample :
    processLine 9 (("ab").data) (revFieldL (("1").data) ++ revFieldL (("2").data))
        = revReplL 9 ++ revReplL 9
    ∧ processLine 9 (("ab").data) (revFieldL (("1").data) ++ revFieldL (("2").data))
        ≠ revReplL 9 ++ revFieldL (("2").data) := by
  constructor
  · decide
  · decide

/-- C4, amended: the Manifest Editor substitutes at every
non-overlapping occurrence of the revision pattern on a line (Python
`re.sub` with the default count replaces all matches), not only the
first: on a line with two revision fields and no other matches, both
fields are rewritten. -/
theorem claim_C4_amended (revision : Int) (a mid b d₁ d₂ : List Char)
    (hd₁ : ∀ c ∈ d₁, isDigitCh c = true) (hd₂ : ∀ c ∈ d₂, isDigitCh c = true)
    (ha : ∀ k, k < a.length → matchAt revKeyL isDigitCh
        ((a ++ (revFieldL d₁ ++ (mid ++ (revFieldL d₂ ++ b)))).drop k) = none)
    (hmid : ∀ k, k < mid.length → matchAt revKeyL isDigitCh
        ((mid ++ (revFieldL d₂ ++ b)).drop k) = none)
    (hb : ∀ k, k < b.length → matchAt revKeyL isDigitCh (b.drop k) = none) :
    reSub revKeyL isDigitCh (revReplL revision)
        (a ++ (revFieldL d₁ ++ (mid ++ (revFieldL d₂ ++ b))))
      = a ++ (revReplL revision ++ (mid ++ (revReplL revision ++ b))) := by
  have hm₂ : matchAt revKeyL isDigitCh (revFieldL d₂ ++ b) = some b :=
    matchAt_revField hd₂ b
  have hstep2 : reSub revKeyL isDigitCh (revReplL revision) (mid ++ (revFieldL d₂ ++ b))
      = mid ++ (revReplL revision ++ b) := by
    rw [show mid ++ (revFieldL d₂ ++ b) = mid ++ revFieldL d₂ ++ b from
      (List.append_assoc mid (revFieldL d₂) b).symm]
    rw [reSub_splice hm₂ hmid]
    rw [reSub_eq_self hb, List.append_assoc]
  have hm₁ : matchAt revKeyL isDigitCh (revFieldL d₁ ++ (mid ++ (revFieldL d₂ ++ b)))
      = some (mid ++ (revFieldL d₂ ++ b)) := matchAt_revField hd₁ _
  rw [show a ++ (revFieldL d₁ ++ (mid ++ (revFieldL d₂ ++ b)))
      = a ++ revFieldL d₁ ++ (mid ++ (revFieldL d₂ ++ b)) from
    (List.append_assoc a (revFieldL d₁) _).symm]
  rw [reSub_splice hm₁ ha]
  rw [hstep2, List.append_assoc]

theorem claim_C4_amended_witness :
    reSub revKeyL isDigitCh (revReplL 7)
        ([] ++ (revFieldL (("1").data) ++ ((("; ").data) ++ (revFieldL (("22").data) ++ []))))
      = [] ++ (revReplL 7 ++ ((("; ").data) ++ (revReplL 7 ++ []))) :=
  claim_C4_amended 7 [] (("; ").data) [] (("1").data) (("22").data)
    (by decide) (by decide) (by decide) (by decide) (by decide)

/-- C2: on a manifest file (given as its list of lines) containing
exactly one revision field — on line `i`, with digit run `d` — and
exactly one hash field — on line `j ≠ i`, with hex run `x` — the
Manifest Editor replaces the revision field with
`"skia_revision": "%d",` of the given revision, the hash field with
`"skia_hash": "%s",` of the given hash, and changes nothing else.
(The hypothesis that the hash contains no backslash keeps the literal
replacement of the model faithful to Python's `re.sub` replacement
escaping; real hashes are hex.)  In particular, rolling to revision
12345 rewrites the revision field to `"skia_revision": "12345",`
(see the witness). -/
theorem claim_C2 (file : List (List Char)) (revision : Int) (git_hash : List Char)
    (i j : Nat) (hrev0 : 0 ≤ revision)
    (a b d a' b' x : List Char)
    (_hgh : ∀ c ∈ git_hash, c ≠ '\\')
    (hd : ∀ c ∈ d, isDigitCh c = true)
    (hx : ∀ c ∈ x, isHexCh c = true)
    (hLi : file[i]? = some (a ++ (revFieldL d ++ b)))
    (hLj : file[j]? = some (a' ++ (hashFieldL x ++ b')))
    (hRevOnce : ∀ k, k < (a ++ (revFieldL d ++ b)).length → k ≠ a.length →
        matchAt revKeyL isDigitCh ((a ++ (revFieldL d ++ b)).drop k) = none)
    (hNoHashI : ∀ k, k < (a ++ (revFieldL d ++ b)).length →
        matchAt hashKeyL isHexCh ((a ++ (revFieldL d ++ b)).drop k) = none)
    (hHashOnce : ∀ k, k < (a' ++ (hashFieldL x ++ b')).length → k ≠ a'.length →
        matchAt hashKeyL isHexCh ((a' ++ (hashFieldL x ++ b')).drop k) = none)
    (hNoRevJ : ∀ k, k < (a' ++ (hashFieldL x ++ b')).length →
        matchAt revKeyL isDigitCh ((a' ++ (hashFieldL x ++ b')).drop k) = none)
    (hOther : ∀ m, m < file.length → m ≠ i → m ≠ j →
        (∀ k, k < (file[m]?.getD []).length →
            matchAt revKeyL isDigitCh ((file[m]?.getD []).drop k) = none) ∧
        (∀ k, k < (file[m]?.getD []).length →
            matchAt hashKeyL isHexCh ((file[m]?.getD []).drop k) = none)) :
    (change_skia_deps revision git_hash file)[i]? = some (a ++ (revReplL revision ++ b))
    ∧ (change_skia_deps revision git_hash file)[j]?
        = some (a' ++ (hashReplL git_hash ++ b'))
    ∧ ∀ m, m ≠ i → m ≠ j →
        (change_skia_deps revision git_hash file)[m]? = file[m]? := by
  refine ⟨?_, ?_, ?_⟩
  · show (file.map (processLine revision git_hash))[i]? = _
    rw [List.getElem?_map, hLi, Option.map_some',
      processLine_revline hrev0 hd hRevOnce hNoHashI]
  · show (file.map (processLine revision git_hash))[j]? = _
    rw [List.getElem?_map, hLj, Option.map_some',
      processLine_hashline hx hHashOnce hNoRevJ]
  · intro m hmi hmj
    show (file.map (processLine revision git_hash))[m]? = file[m]?
    rw [List.getElem?_map]
    by_cases hmlt : m < file.length
    · cases hm : file[m]? with
      | none => rfl
      | some L =>
        obtain ⟨h1, h2⟩ := hOther m hmlt hmi hmj
        rw [hm] at h1 h2
        simp only [Option.getD_some] at h1 h2
        rw [Option.map_some', processLine_nomatch h1 h2]
    · rw [List.getElem?_eq_none (by omega)]
      rfl

theorem claim_C2_witness :
    (change_skia_deps 12345 (("deadbeef").data)
        [("  \"other\": \"1a\",").data,
         ("  ").data ++ (revFieldL (("100").data) ++ []),
         ("  ").data ++ (hashFieldL (("00ff").data) ++ [])])[1]?
      = some (("  ").data ++ (revReplL 12345 ++ []))
    ∧ (change_skia_deps 12345 (("deadbeef").data)
        [("  \"other\": \"1a\",").data,
         ("  ").data ++ (revFieldL (("100").data) ++ []),
         ("  ").data ++ (hashFieldL (("00ff").data) ++ [])])[2]?
      = some (("  ").data ++ (hashReplL (("deadbeef").data) ++ []))
    ∧ ∀ m, m ≠ 1 → m ≠ 2 →
        (change_skia_deps 12345 (("deadbeef").data)
          [("  \"other\": \"1a\",").data,
           ("  ").data ++ (revFieldL (("100").data) ++ []),
           ("  ").data ++ (hashFieldL (("00ff").data) ++ [])])[m]?
        = [("  \"other\": \"1a\",").data,
           ("  ").data ++ (revFieldL (("100").data) ++ []),
           ("  ").data ++ (hashFieldL (("00ff").data) ++ [])][m]? :=
  claim_C2
    [("  \"other\": \"1a\",").data,
     ("  ").data ++ (revFieldL (("100").data) ++ []),
     ("  ").data ++ (hashFieldL (("00ff").data) ++ [])]
    12345 (("deadbeef").data) 1 2 (by decide)
    (("  ").data) [] (("100").data) (("  ").data) [] (("00ff").data)
    (by decide) (by decide) (by decide) (by decide) (by decide)
    (by decide) (by decide) (by decide) (by decide)
    (by
      intro m hm h1 h2
      have hm3 : m < 3 := by simpa using hm
      interval_cases m
      · exact ⟨by decide, by decide⟩
      · exact absurd rfl h1
      · exact absurd rfl h2)

/-! ## `branch_name` (claim C8) -/

theorem mem_of_mem_dropWhile {f : Char → Bool} {c : Char} :
    ∀ {l : List Char}, c ∈ l.dropWhile f → c ∈ l := by
  intro l
  induction l with
  | nil => intro h; exact h
  | cons y ys ih =>
    intro h
    simp only [List.dropWhile] at h
    cases hf : f y with
    | true => rw [hf] at h; exact List.mem_cons_of_mem y (ih h)
    | false => rw [hf] at h; exact h

theorem mem_of_mem_rstripL {c : Char} {l : List Char} (h : c ∈ rstripL l) : c ∈ l := by
  unfold rstripL at h
  rw [List.mem_reverse] at h
  have := mem_of_mem_dropWhile h
  rw [List.mem_reverse] at this
  exact this

theorem mem_firstLineL_ne_nl {c : Char} {l : List Char} (h : c ∈ firstLineL l) :
    c ≠ '\n' := by
  have := List.mem_takeWhile_imp h
  simpa using this

/-- C8, counterexample: `branch_name` only replaces spaces, so a tab in
the first line of the message survives into the result, which therefore
contains a whitespace character. -/
theorem claim_C8_counterexample :
    '\t' ∈ branch_name (("a\tb").data) ∧ pyWS '\t' = true := by
  constructor
  · decide
  · decide

/-- C8, amended: `branch_name` never returns a space (spaces become
underscores); when the message's only whitespace characters are spaces
and newlines — true of the commit messages this script generates — the
result contains no whitespace at all; and when the message has no
leading whitespace and its first line has no trailing whitespace, the
result is exactly the message's first line with spaces replaced by
underscores.  (Other whitespace, such as a tab, survives; see the
counterexample.) -/
theorem claim_C8_amended (message : List Char) :
    (' ' ∉ branch_name message)
    ∧ ((∀ c ∈ message, pyWS c = true → c = ' ' ∨ c = '\n') →
        ∀ c ∈ branch_name message, pyWS c = false)
    ∧ (lstripL message = message →
        rstripL (firstLineL message) = firstLineL message →
        branch_name message
          = (firstLineL message).map (fun c => if c = ' ' then '_' else c)) := by
  refine ⟨?_, ?_, ?_⟩
  · intro hmem
    unfold branch_name at hmem
    rw [List.mem_map] at hmem
    obtain ⟨c, _, hc⟩ := hmem
    by_cases hsp : c = ' '
    · rw [if_pos hsp] at hc; exact absurd hc (by decide)
    · rw [if_neg hsp] at hc; exact hsp (hc ▸ rfl)
  · intro hws c hc
    rw [branch_name, List.mem_map] at hc
    obtain ⟨c₀, hc₀, hcc⟩ := hc
    have hline : c₀ ∈ firstLineL (lstripL message) := mem_of_mem_rstripL hc₀
    have hnl : c₀ ≠ '\n' := mem_firstLineL_ne_nl hline
    have hmsg : c₀ ∈ message := by
      have h1 : c₀ ∈ lstripL message := by
        have := List.takeWhile_sublist (l := lstripL message)
          (p := fun c => decide (c ≠ '\n'))
        exact this.subset hline
      exact mem_of_mem_dropWhile h1
    by_cases hsp : c₀ = ' '
    · rw [if_pos hsp] at hcc
      rw [← hcc]
      decide
    · rw [if_neg hsp] at hcc
      rw [← hcc]
      cases hpw : pyWS c₀ with
      | false => rfl
      | true =>
        rcases hws c₀ hmsg hpw with h | h
        · exact absurd h hsp
        · exact absurd h hnl
  · intro h1 h2
    rw [branch_name, h1, h2]

theorem claim_C8_amended_witness :
    (' ' ∉ branch_name (("roll skia DEPS to 12345\nbody").data))
    ∧ (∀ c ∈ branch_name (("roll skia DEPS to 12345\nbody").data), pyWS c = false)
    ∧ branch_name (("roll skia DEPS to 12345\nbody").data)
        = (firstLineL (("roll skia DEPS to 12345\nbody").data)).map
            (fun c => if c = ' ' then '_' else c) := by
  obtain ⟨h1, h2, h3⟩ := claim_C8_amended (("roll skia DEPS to 12345\nbody").data)
  exact ⟨h1, h2 (by decide), h3 (by decide) (by decide)⟩

/-! ## `find_revision_and_hash` with a target revision (claim C6)

The tracking branch's history is modelled as a list of commits, newest
first; `git log --grep PATTERN --format=format:%H origin/master` yields
the hashes of all commits whose message contains the pattern, one per
line, newest first, which `strip_output` then strips.  The clone depth
(`--depth=%d`) truncates the visible history.  The dots of the marker's
URL are treated as literal characters (they are regex wildcards, which
could only allow additional exotic messages). -/

/-- The exceptions of the script that matter to the model. -/
inductive PyErr where
  | ioError
  | depsRollError
  | calledProcessError
deriving DecidableEq

structure SkiaCommit where
  sha : List Char
  msg : List Char
deriving DecidableEq

deriving instance DecidableEq for Except

def startsWithL : List Char → List Char → Bool
  | [], _ => true
  | _ :: _, [] => false
  | p :: ps, c :: cs => (p == c) && startsWithL ps cs

/-- Substring containment, as `git log --grep` uses on the message. -/
def containsL (pat : List Char) : List Char → Bool
  | [] => startsWithL pat []
  | c :: cs => startsWithL pat (c :: cs) || containsL pat cs

/-- `config.revision_format % revision`:
`'git-svn-id: http://skia.googlecode.com/svn/trunk@%d '`. -/
def revision_format_marker (revision : Int) : List Char :=
  ("git-svn-id: http://skia.googlecode.com/svn/trunk@").data
    ++ intDec revision ++ (" ").data

/-- Newline-joined multi-line command output, as produced by
`git log --format=format:%H`. -/
def joinNL : List (List Char) → List Char
  | [] => []
  | x :: [] => x
  | x :: y :: t => x ++ '\n' :: joinNL (y :: t)

/-- `find_revision_and_hash(config, revision)` for `revision is not None`,
on a repository whose `origin/master` history (newest first, truncated
to the clone depth) is `history`; assumes the git invocations succeed. -/
def find_revision_and_hash (search_depth : Nat) (history : List SkiaCommit)
    (revision : Int) : Except PyErr (Int × List Char) :=
  let matched := (history.take search_depth).filter
    (fun c => containsL (revision_format_marker revision) c.msg)
  let git_hash := stripL (joinNL (matched.map (fun c => c.sha)))
  if revision < 0 ∨ git_hash = [] then Except.error PyErr.depsRollError
  else Except.ok (revision, git_hash)

theorem hex_not_ws {c : Char} (h : isHexCh c = true) : pyWS c = false := by
  cases hw : pyWS c
  · rfl
  · exfalso
    simp only [pyWS, Bool.or_eq_true, decide_eq_true_eq] at hw
    rcases hw with ((((h1 | h1) | h1) | h1) | h1) | h1 <;>
      (subst h1; exact absurd h (by decide))

theorem dropWhile_eq_self_of_all {f : Char → Bool} :
    ∀ {l : List Char}, (∀ c ∈ l, f c = false) → l.dropWhile f = l := by
  intro l
  induction l with
  | nil => intro _; rfl
  | cons y ys _ =>
    intro h
    simp only [List.dropWhile, h y (by simp)]

theorem stripL_eq_self_of_all {l : List Char} (h : ∀ c ∈ l, pyWS c = false) :
    stripL l = l := by
  unfold stripL lstripL rstripL
  rw [dropWhile_eq_self_of_all h]
  rw [dropWhile_eq_self_of_all (by intro c hc; exact h c (List.mem_reverse.mp hc))]
  exact List.reverse_reverse l

theorem mem_dropWhile_of_mem {f : Char → Bool} {c : Char} (hf : f c = false) :
    ∀ {l : List Char}, c ∈ l → c ∈ l.dropWhile f := by
  intro l
  induction l with
  | nil => intro h; exact h
  | cons y ys ih =>
    intro h
    simp only [List.dropWhile]
    cases hy : f y with
    | true =>
      rcases List.mem_cons.mp h with h1 | h1
      · subst h1; rw [hf] at hy; cases hy
      · exact ih h1
    | false => exact h

theorem stripL_ne_nil {s : List Char} (c : Char) (hc : c ∈ s) (hnw : pyWS c = false) :
    stripL s ≠ [] := by
  unfold stripL lstripL rstripL
  intro hnil
  have h1 : c ∈ s.dropWhile pyWS := mem_dropWhile_of_mem hnw hc
  have h2 : c ∈ ((s.dropWhile pyWS).reverse.dropWhile pyWS).reverse := by
    rw [List.mem_reverse]
    exact mem_dropWhile_of_mem hnw (List.mem_reverse.mpr h1)
  rw [hnil] at h2
  cases h2

theorem joinNL_cons_exists (x : List Char) (xs : List (List Char)) :
    ∃ z, joinNL (x :: xs) = x ++ z := by
  cases xs with
  | nil => exact ⟨[], by simp [joinNL]⟩
  | cons y t => exact ⟨'\n' :: joinNL (y :: t), rfl⟩

/-- C6, counterexample: the claim says the Revision Locator "returns the
first match's hash".  With two commits carrying the same revision
marker, `git log --grep` prints both hashes and the code returns the
newline-joined pair, not the first hash. -/
theorem claim_C6_counterexample :
    find_revision_and_hash 10
        [⟨("aa11").data,
          ("git-svn-id: http://skia.googlecode.com/svn/trunk@7 x").data⟩,
         ⟨("bb22").data,
          ("git-svn-id: http://skia.googlecode.com/svn/trunk@7 x").data⟩] 7
      = Except.ok (7, ("aa11").data ++ '\n' :: ("bb22").data)
    ∧ find_revision_and_hash 10
        [⟨("aa11").data,
          ("git-svn-id: http://skia.googlecode.com/svn/trunk@7 x").data⟩,
         ⟨("bb22").data,
          ("git-svn-id: http://skia.googlecode.com/svn/trunk@7 x").data⟩] 7
      ≠ Except.ok (7, ("aa11").data) := by
  constructor
  · decide
  · decide

/-- C6, amended: with a target revision, the locator greps the history
visible within the clone depth for the marker encoding exactly that
revision and returns the newline-joined hashes of all matching commits
— the unique matching commit's full hash when exactly one matches (a
full-length hex identifier whenever commit hashes are).  It fails with
`DepsRollError` exactly when no commit within the search depth matches
or the revision is negative (given nonempty hex commit hashes). -/
theorem claim_C6_amended (search_depth : Nat) (history : List SkiaCommit)
    (revision : Int)
    (hsha : ∀ c ∈ history, c.sha ≠ [] ∧ ∀ ch ∈ c.sha, isHexCh ch = true) :
    (revision < 0 → find_revision_and_hash search_depth history revision
        = Except.error PyErr.depsRollError)
    ∧ (0 ≤ revision →
        (find_revision_and_hash search_depth history revision
            = Except.error PyErr.depsRollError
          ↔ (history.take search_depth).filter
              (fun c => containsL (revision_format_marker revision) c.msg) = []))
    ∧ (∀ c, 0 ≤ revision →
        (history.take search_depth).filter
            (fun c' => containsL (revision_format_marker revision) c'.msg) = [c] →
        find_revision_and_hash search_depth history revision
            = Except.ok (revision, c.sha)
          ∧ c.sha ≠ [] ∧ ∀ ch ∈ c.sha, isHexCh ch = true) := by
  have hmem : ∀ c, c ∈ (history.take search_depth).filter
      (fun c' => containsL (revision_format_marker revision) c'.msg) → c ∈ history := by
    intro c hc
    exact List.take_subset search_depth history (List.mem_of_mem_filter hc)
  refine ⟨?_, ?_, ?_⟩
  · intro hneg
    unfold find_revision_and_hash
    rw [if_pos (Or.inl hneg)]
  · intro hpos
    unfold find_revision_and_hash
    cases hfil : (history.take search_depth).filter
        (fun c => containsL (revision_format_marker revision) c.msg) with
    | nil =>
      simp only [hfil, List.map_nil]
      rw [if_pos (Or.inr (show stripL (joinNL []) = [] from rfl))]
      simp
    | cons c₀ rest =>
      simp only [hfil]
      have hc₀ := hsha c₀ (hmem c₀ (by rw [hfil]; simp))
      obtain ⟨hne, hhex⟩ := hc₀
      obtain ⟨ch, tl, hch⟩ := List.exists_cons_of_ne_nil hne
      have hchhex : isHexCh ch = true := hhex ch (by rw [hch]; simp)
      obtain ⟨z, hz⟩ := joinNL_cons_exists c₀.sha (rest.map (fun c => c.sha))
      have hmemch : ch ∈ joinNL (c₀.sha :: rest.map (fun c => c.sha)) := by
        rw [hz]
        exact List.mem_append_left z (by rw [hch]; simp)
      have hstrip : stripL (joinNL (c₀.sha :: rest.map (fun c => c.sha))) ≠ [] :=
        stripL_ne_nil ch hmemch (hex_not_ws hchhex)
      rw [List.map_cons, if_neg (by
        intro hor
        rcases hor with h | h
        · omega
        · exact hstrip h)]
      constructor
      · intro h; cases h
      · intro h; cases h
  · intro c hpos hfil
    have hc := hsha c (hmem c (by rw [hfil]; simp))
    obtain ⟨hne, hhex⟩ := hc
    have hstrip : stripL (joinNL [c.sha]) = c.sha := by
      have : joinNL [c.sha] = c.sha := rfl
      rw [this]
      exact stripL_eq_self_of_all (fun ch hch => hex_not_ws (hhex ch hch))
    refine ⟨?_, hne, hhex⟩
    unfold find_revision_and_hash
    rw [hfil]
    simp only [List.map_cons, List.map_nil]
    rw [hstrip]
    rw [if_neg (by
      intro hor
      rcases hor with h | h
      · omega
      · exact hne h)]

theorem claim_C6_amended_witness :
    find_revision_and_hash 10
        [⟨("ab12cd").data,
          ("Fix stuff\n\ngit-svn-id: http://skia.googlecode.com/svn/trunk@42 9fa").data⟩,
         ⟨("0099aa").data,
          ("Other\n\ngit-svn-id: http://skia.googlecode.com/svn/trunk@41 9fa").data⟩] 42
        = Except.ok (42, ("ab12cd").data)
      ∧ ("ab12cd").data ≠ []
      ∧ ∀ ch ∈ (("ab12cd").data), isHexCh ch = true :=
  (claim_C6_amended 10
    [⟨("ab12cd").data,
      ("Fix stuff\n\ngit-svn-id: http://skia.googlecode.com/svn/trunk@42 9fa").data⟩,
     ⟨("0099aa").data,
      ("Other\n\ngit-svn-id: http://skia.googlecode.com/svn/trunk@41 9fa").data⟩] 42
    (by decide)).2.2
    ⟨("ab12cd").data,
      ("Fix stuff\n\ngit-svn-id: http://skia.googlecode.com/svn/trunk@42 9fa").data⟩
    (by decide) (by decide)

/-! ## Git repository model for `GitBranchCLUpload` (claims C1, C10)

The repository state tracks what the transaction touches: the checked
out head (a branch name or a detached commit), the set of local branch
names, whether the working tree has uncommitted changes, and the stash
depth.  Branch tips are not tracked: restoration is at the granularity
of branch names, which is what `__exit__` operates on.  All git
invocations are assumed to succeed; `git commit` commits the staged
body changes, leaving a clean tree. -/

inductive GitHead where
  | branch (name : String)
  | detached (rev : String)
deriving DecidableEq

structure GitRepo where
  head : GitHead
  branches : List String
  dirty : Bool
  stash : Nat
deriving DecidableEq

inductive GitCmd where
  | stashSave
  | stashPop
  | checkout (target : String)
  | checkoutNewBranch (name : String)
  | deleteBranch (name : String)
  | commit
  | clUpload
  | clTry
deriving DecidableEq

def defaultBranchNameS : String := "autogenerated_deps_roll_branch"

def masterS : String := "master"

/-- The configuration fields of `DepsRollConfig` that the transaction
reads. -/
structure DepsRollConfig where
  verbose : Bool
  save_branches : Bool
  skip_cl_upload : Bool
  cl_bot_list : List (List Char)
  default_branch_name : String
deriving DecidableEq

/-- `DepsRollConfig.__init__`: the bot list is the comma-split option
with empty strings removed; the default branch name is fixed. -/
def mkConfig (verbose save_branches skip_cl_upload : Bool) (bots : List Char) :
    DepsRollConfig :=
  ⟨verbose, save_branches, skip_cl_upload, clBotList bots, defaultBranchNameS⟩

/-- `git checkout -q TARGET`: a branch if one of that name exists,
otherwise a detached head at that commit. -/
def gitCheckout (r : GitRepo) (target : String) : GitRepo :=
  if target ∈ r.branches then { r with head := GitHead.branch target }
  else { r with head := GitHead.detached target }

/-- `git branch -q -D NAME`. -/
def gitDeleteBranch (r : GitRepo) (name : String) : GitRepo :=
  { r with branches := r.branches.erase name }

/-- `git checkout -q -b NAME origin/master`. -/
def gitCheckoutNewBranch (r : GitRepo) (name : String) : GitRepo :=
  { r with branches := name :: r.branches, head := GitHead.branch name }

/-- The transaction-local state recorded by `GitBranchCLUpload.__enter__`:
`self._branch_name`, `self._stash` and `self._original_branch`. -/
structure TxnState where
  branchName : String
  stash : Bool
  originalBranch : String
deriving DecidableEq

/-- `GitBranchCLUpload.__enter__`, assuming the git invocations succeed:
stash when dirty; record the current branch (`git symbolic-ref --short
HEAD`) or, detached, the commit (`git rev-parse HEAD`); fall back to the
default branch name; force-delete a pre-existing branch of that name
(after switching to master); then create the branch from
`origin/master`. -/
def txnEnter (cfg : DepsRollConfig) (set_branch_name : Option String) (r : GitRepo) :
    TxnState × GitRepo × List GitCmd :=
  let stash := r.dirty
  let r1 := if stash then { r with dirty := false, stash := r.stash + 1 } else r
  let tr1 : List GitCmd := if stash then [GitCmd.stashSave] else []
  let originalBranch :=
    match r1.head with
    | GitHead.branch b => b
    | GitHead.detached h => h
  let name := set_branch_name.getD cfg.default_branch_name
  let r2 := if name ∈ r1.branches then gitDeleteBranch (gitCheckout r1 masterS) name else r1
  let tr2 : List GitCmd :=
    if name ∈ r1.branches then [GitCmd.checkout masterS, GitCmd.deleteBranch name] else []
  (⟨name, stash, originalBranch⟩, gitCheckoutNewBranch r2 name,
    tr1 ++ tr2 ++ [GitCmd.checkoutNewBranch name])

/-- `GitBranchCLUpload.__exit__`, assuming the git invocations succeed:
add and commit the staged files; upload (and trigger try bots when the
bot list is nonempty) unless `skip_cl_upload`, in which case the
commands are only printed; translate the recorded original branch to
master when it is the default branch name; check out the restoration
target; delete the branch when it used the default name; pop the stash
when one was made.  The exception arguments of `__exit__` are ignored
by the source, so they do not appear here. -/
def txnExit (cfg : DepsRollConfig) (t : TxnState) (r : GitRepo) :
    GitRepo × List GitCmd :=
  let r1 := { r with dirty := false }
  let trUpload : List GitCmd :=
    if cfg.skip_cl_upload then []
    else GitCmd.clUpload :: (if cfg.cl_bot_list.isEmpty then [] else [GitCmd.clTry])
  let restore :=
    if cfg.default_branch_name = t.originalBranch then masterS else t.originalBranch
  let r2 := gitCheckout r1 restore
  let r3 := if cfg.default_branch_name = t.branchName
    then gitDeleteBranch r2 t.branchName else r2
  let trDel : List GitCmd :=
    if cfg.default_branch_name = t.branchName then [GitCmd.deleteBranch t.branchName] else []
  let r4 := if t.stash then { r3 with dirty := true, stash := r3.stash - 1 } else r3
  let trPop : List GitCmd := if t.stash then [GitCmd.stashPop] else []
  (r4, GitCmd.commit :: (trUpload ++ (GitCmd.checkout restore :: (trDel ++ trPop))))

/-- A full `with GitBranchCLUpload(config, message, branch):` block:
enter, caller body, exit.  `bodyDirties` records whether the body
modified the working tree.  `_bodyRaises` records whether the body
raised: Python runs `__exit__` on both the normal and the raising path,
and `__exit__` ignores its exception triple, so the flag does not
influence the evolution — exactly as in the source. -/
def runTxn (cfg : DepsRollConfig) (set_branch_name : Option String)
    (bodyDirties _bodyRaises : Bool) (r : GitRepo) : GitRepo × List GitCmd :=
  let (t, r1, tr1) := txnEnter cfg set_branch_name r
  let r2 := { r1 with dirty := r1.dirty || bodyDirties }
  let (r3, tr3) := txnExit cfg t r2
  (r3, tr1 ++ tr3)

/-- The pre-transaction head can be restored by name: a branch head must
be a real, non-default branch; a detached head must not collide with a
branch name or the transaction's branch name. -/
def headRestorable (cfg : DepsRollConfig) (set_branch_name : Option String)
    (r : GitRepo) : Bool :=
  match r.head with
  | GitHead.branch b =>
      decide (b ∈ r.branches) && decide (b ≠ cfg.default_branch_name)
  | GitHead.detached h =>
      decide (h ∉ r.branches) && decide (h ≠ cfg.default_branch_name)
        && decide (h ≠ set_branch_name.getD cfg.default_branch_name)

/-- C1, counterexample: a run that begins on the default temporary
branch name (the aftermath of a previously failed run) is not returned
to its pre-transaction branch: `__exit__` translates the recorded
original branch to `master`, and the original branch is deleted. -/
theorem claim_C1_counterexample :
    (runTxn (mkConfig false false false []) none false false
        ⟨GitHead.branch defaultBranchNameS, [defaultBranchNameS, masterS], false, 0⟩).1.head
      = GitHead.branch masterS
    ∧ (runTxn (mkConfig false false false []) none false false
        ⟨GitHead.branch defaultBranchNameS, [defaultBranchNameS, masterS], false, 0⟩).1.head
      ≠ GitHead.branch defaultBranchNameS := by
  constructor
  · decide
  · decide

/-- The string `__enter__` records as `self._original_branch`: the
branch name, or the commit for a detached head. -/
def origOf (r : GitRepo) : String :=
  match r.head with
  | GitHead.branch b => b
  | GitHead.detached h => h

theorem txnEnter_txn (cfg : DepsRollConfig) (bn : Option String) (r : GitRepo) :
    (txnEnter cfg bn r).1 = ⟨bn.getD cfg.default_branch_name, r.dirty, origOf r⟩ := by
  obtain ⟨head, branches, dirty, stash⟩ := r
  cases dirty <;> rfl

theorem txnEnter_head (cfg : DepsRollConfig) (bn : Option String) (r : GitRepo) :
    (txnEnter cfg bn r).2.1.head = GitHead.branch (bn.getD cfg.default_branch_name) := rfl

theorem txnEnter_branches (cfg : DepsRollConfig) (bn : Option String) (r : GitRepo) :
    (txnEnter cfg bn r).2.1.branches
      = bn.getD cfg.default_branch_name ::
        (if bn.getD cfg.default_branch_name ∈ r.branches
         then r.branches.erase (bn.getD cfg.default_branch_name) else r.branches) := by
  obtain ⟨head, branches, dirty, stash⟩ := r
  cases dirty <;>
    by_cases hmem : bn.getD cfg.default_branch_name ∈ branches <;>
      simp [txnEnter, gitCheckoutNewBranch, gitDeleteBranch, gitCheckout, hmem, apply_ite]

theorem txnEnter_dirty (cfg : DepsRollConfig) (bn : Option String) (r : GitRepo) :
    (txnEnter cfg bn r).2.1.dirty = false := by
  obtain ⟨head, branches, dirty, stash⟩ := r
  cases dirty <;>
    by_cases hmem : bn.getD cfg.default_branch_name ∈ branches <;>
      simp [txnEnter, gitCheckoutNewBranch, gitDeleteBranch, gitCheckout, hmem, apply_ite]

theorem txnEnter_stash (cfg : DepsRollConfig) (bn : Option String) (r : GitRepo) :
    (txnEnter cfg bn r).2.1.stash = r.stash + (if r.dirty then 1 else 0) := by
  obtain ⟨head, branches, dirty, stash⟩ := r
  cases dirty <;>
    by_cases hmem : bn.getD cfg.default_branch_name ∈ branches <;>
      simp [txnEnter, gitCheckoutNewBranch, gitDeleteBranch, gitCheckout, hmem, apply_ite]

theorem txnEnter_trace (cfg : DepsRollConfig) (bn : Option String) (r : GitRepo) :
    (txnEnter cfg bn r).2.2
      = (if r.dirty then [GitCmd.stashSave] else [])
        ++ (if bn.getD cfg.default_branch_name ∈ r.branches
            then [GitCmd.checkout masterS,
                  GitCmd.deleteBranch (bn.getD cfg.default_branch_name)] else [])
        ++ [GitCmd.checkoutNewBranch (bn.getD cfg.default_branch_name)] := by
  obtain ⟨head, branches, dirty, stash⟩ := r
  cases dirty <;>
    by_cases hmem : bn.getD cfg.default_branch_name ∈ branches <;>
      simp [txnEnter, hmem]

theorem txnExit_head (cfg : DepsRollConfig) (t : TxnState) (r : GitRepo) :
    (txnExit cfg t r).1.head
      = (if (if cfg.default_branch_name = t.originalBranch
             then masterS else t.originalBranch) ∈ r.branches
         then GitHead.branch (if cfg.default_branch_name = t.originalBranch
             then masterS else t.originalBranch)
         else GitHead.detached (if cfg.default_branch_name = t.originalBranch
             then masterS else t.originalBranch)) := by
  unfold txnExit gitCheckout gitDeleteBranch
  by_cases h2 : cfg.default_branch_name = t.branchName <;>
    cases ht : t.stash <;>
      simp [h2, ht] <;> (try split) <;> (try split) <;> rfl

theorem txnExit_branches (cfg : DepsRollConfig) (t : TxnState) (r : GitRepo) :
    (txnExit cfg t r).1.branches
      = (if cfg.default_branch_name = t.branchName
         then r.branches.erase t.branchName else r.branches) := by
  unfold txnExit gitCheckout gitDeleteBranch
  by_cases h2 : cfg.default_branch_name = t.branchName <;>
    cases ht : t.stash <;>
      simp [h2, ht] <;> (try split) <;> (try split) <;> rfl

theorem txnExit_dirty (cfg : DepsRollConfig) (t : TxnState) (r : GitRepo) :
    (txnExit cfg t r).1.dirty = t.stash := by
  unfold txnExit gitCheckout gitDeleteBranch
  by_cases h2 : cfg.default_branch_name = t.branchName <;>
    cases ht : t.stash <;>
      simp [h2, ht] <;> (try split) <;> (try split) <;> rfl

theorem txnExit_stash (cfg : DepsRollConfig) (t : TxnState) (r : GitRepo) :
    (txnExit cfg t r).1.stash = r.stash - (if t.stash then 1 else 0) := by
  unfold txnExit gitCheckout gitDeleteBranch
  by_cases h2 : cfg.default_branch_name = t.branchName <;>
    cases ht : t.stash <;>
      simp [h2, ht] <;> (try split) <;> (try split) <;> rfl

theorem txnExit_trace (cfg : DepsRollConfig) (t : TxnState) (r : GitRepo) :
    (txnExit cfg t r).2
      = GitCmd.commit ::
        ((if cfg.skip_cl_upload then []
          else GitCmd.clUpload ::
            (if cfg.cl_bot_list.isEmpty then [] else [GitCmd.clTry]))
          ++ (GitCmd.checkout (if cfg.default_branch_name = t.originalBranch
                then masterS else t.originalBranch)
              :: ((if cfg.default_branch_name = t.branchName
                   then [GitCmd.deleteBranch t.branchName] else [])
                  ++ (if t.stash then [GitCmd.stashPop] else [])))) := rfl

theorem runTxn_eq (cfg : DepsRollConfig) (bn : Option String) (bd br : Bool)
    (r : GitRepo) :
    runTxn cfg bn bd br r
      = ((txnExit cfg (txnEnter cfg bn r).1
            { (txnEnter cfg bn r).2.1 with
                dirty := (txnEnter cfg bn r).2.1.dirty || bd }).1,
         (txnEnter cfg bn r).2.2
           ++ (txnExit cfg (txnEnter cfg bn r).1
               { (txnEnter cfg bn r).2.1 with
                   dirty := (txnEnter cfg bn r).2.1.dirty || bd }).2) := by
  unfold runTxn
  rfl

/-- C1, amended: in a Scoped Branch Transaction in which the underlying
git invocations succeed, **provided the run does not start on the
default temporary branch name** (when it does, the code deliberately
restores to `master` instead — see the counterexample — since that
branch is deleted by `__enter__`), the repository is returned to its
pre-transaction branch or detached-head commit, with the working tree
dirty-state and the stash depth restored; the temporary branch is
deleted when it used the default name; and the stash is popped iff one
was made on entry.  This holds both for a normal exit of the body and
when the body raises, since `__exit__` runs and ignores its exception
arguments on both paths (the `bodyRaises` flag is universally
quantified here). -/
theorem claim_C1_amended (cfg : DepsRollConfig) (set_branch_name : Option String)
    (bodyDirties bodyRaises : Bool) (r : GitRepo)
    (hnodup : r.branches.Nodup)
    (hres : headRestorable cfg set_branch_name r = true) :
    ((runTxn cfg set_branch_name bodyDirties bodyRaises r).1.head = r.head)
    ∧ ((runTxn cfg set_branch_name bodyDirties bodyRaises r).1.dirty = r.dirty)
    ∧ ((runTxn cfg set_branch_name bodyDirties bodyRaises r).1.stash = r.stash)
    ∧ (set_branch_name.getD cfg.default_branch_name = cfg.default_branch_name →
        cfg.default_branch_name
          ∉ (runTxn cfg set_branch_name bodyDirties bodyRaises r).1.branches)
    ∧ (GitCmd.stashSave ∈ (runTxn cfg set_branch_name bodyDirties bodyRaises r).2
        ↔ r.dirty = true)
    ∧ (GitCmd.stashPop ∈ (runTxn cfg set_branch_name bodyDirties bodyRaises r).2
        ↔ r.dirty = true) := by
  rw [runTxn_eq]
  set rMid : GitRepo :=
    { (txnEnter cfg set_branch_name r).2.1 with
        dirty := (txnEnter cfg set_branch_name r).2.1.dirty || bodyDirties } with hrMid
  have hMidBranches : rMid.branches
      = set_branch_name.getD cfg.default_branch_name ::
        (if set_branch_name.getD cfg.default_branch_name ∈ r.branches
         then r.branches.erase (set_branch_name.getD cfg.default_branch_name)
         else r.branches) := by
    rw [hrMid]
    show (txnEnter cfg set_branch_name r).2.1.branches = _
    exact txnEnter_branches cfg set_branch_name r
  have hMidStash : rMid.stash = r.stash + (if r.dirty then 1 else 0) := by
    rw [hrMid]
    show (txnEnter cfg set_branch_name r).2.1.stash = _
    exact txnEnter_stash cfg set_branch_name r
  have htxn := txnEnter_txn cfg set_branch_name r
  refine ⟨?_, ?_, ?_, ?_, ?_, ?_⟩
  · -- head restoration
    rw [txnExit_head, htxn, hMidBranches]
    dsimp only
    cases hh : r.head with
    | branch b =>
      have hor : origOf r = b := by rw [origOf, hh]
      rw [headRestorable, hh] at hres
      simp only [Bool.and_eq_true, decide_eq_true_eq] at hres
      obtain ⟨hbmem, hbdef⟩ := hres
      have hbmem2 : b ∈ set_branch_name.getD cfg.default_branch_name ::
          (if set_branch_name.getD cfg.default_branch_name ∈ r.branches
           then r.branches.erase (set_branch_name.getD cfg.default_branch_name)
           else r.branches) := by
        by_cases hbn : b = set_branch_name.getD cfg.default_branch_name
        · rw [hbn]
          exact List.mem_cons_self _ _
        · refine List.mem_cons_of_mem _ ?_
          by_cases hmem : set_branch_name.getD cfg.default_branch_name ∈ r.branches
          · rw [if_pos hmem]
            exact (List.mem_erase_of_ne hbn).mpr hbmem
          · rw [if_neg hmem]
            exact hbmem
      rw [hor, if_neg (show ¬(cfg.default_branch_name = b) from fun hq => hbdef hq.symm),
        if_pos hbmem2]
    | detached h =>
      have hor : origOf r = h := by rw [origOf, hh]
      rw [headRestorable, hh] at hres
      simp only [Bool.and_eq_true, decide_eq_true_eq] at hres
      obtain ⟨⟨hhmem, hhdef⟩, hhbn⟩ := hres
      have hnmem2 : h ∉ set_branch_name.getD cfg.default_branch_name ::
          (if set_branch_name.getD cfg.default_branch_name ∈ r.branches
           then r.branches.erase (set_branch_name.getD cfg.default_branch_name)
           else r.branches) := by
        intro hcon
        rcases List.mem_cons.mp hcon with h1 | h1
        · exact hhbn h1
        · by_cases hmem : set_branch_name.getD cfg.default_branch_name ∈ r.branches
          · rw [if_pos hmem] at h1
            exact hhmem (List.mem_of_mem_erase h1)
          · rw [if_neg hmem] at h1
            exact hhmem h1
      rw [hor, if_neg (show ¬(cfg.default_branch_name = h) from fun hq => hhdef hq.symm),
        if_neg hnmem2]
  · rw [txnExit_dirty, htxn]
  · rw [txnExit_stash, htxn, hMidStash]
    cases r.dirty <;> simp
  · intro hgd
    rw [txnExit_branches, htxn, hMidBranches]
    dsimp only
    rw [hgd, if_pos rfl, List.erase_cons_head]
    by_cases hmem : cfg.default_branch_name ∈ r.branches
    · rw [if_pos hmem]
      intro hcon
      exact ((List.Nodup.mem_erase_iff hnodup).mp hcon).1 rfl
    · rw [if_neg hmem]
      exact hmem
  · rw [txnEnter_trace, txnExit_trace, htxn]
    dsimp only
    cases r.dirty <;>
      by_cases hmem : set_branch_name.getD cfg.default_branch_name ∈ r.branches <;>
        by_cases hskip : cfg.skip_cl_upload <;>
          by_cases hbots : cfg.cl_bot_list.isEmpty <;>
            by_cases hdn : cfg.default_branch_name
                = set_branch_name.getD cfg.default_branch_name <;>
              first
              | simp [hmem, hskip, hbots, ← hdn]
              | simp [hmem, hskip, hbots, hdn]
  · rw [txnEnter_trace, txnExit_trace, htxn]
    dsimp only
    cases r.dirty <;>
      by_cases hmem : set_branch_name.getD cfg.default_branch_name ∈ r.branches <;>
        by_cases hskip : cfg.skip_cl_upload <;>
          by_cases hbots : cfg.cl_bot_list.isEmpty <;>
            by_cases hdn : cfg.default_branch_name
                = set_branch_name.getD cfg.default_branch_name <;>
              first
              | simp [hmem, hskip, hbots, ← hdn]
              | simp [hmem, hskip, hbots, hdn]

def workBranchS : String := "work"

def cfgW : DepsRollConfig := mkConfig false false false (("a,b").data)

def repoW : GitRepo := ⟨GitHead.branch workBranchS, [workBranchS, masterS], true, 0⟩

theorem claim_C1_witness :
    ((runTxn cfgW none true true repoW).1.head = repoW.head)
    ∧ ((runTxn cfgW none true true repoW).1.dirty = repoW.dirty)
    ∧ ((runTxn cfgW none true true repoW).1.stash = repoW.stash)
    ∧ ((none : Option String).getD cfgW.default_branch_name = cfgW.default_branch_name →
        cfgW.default_branch_name ∉ (runTxn cfgW none true true repoW).1.branches)
    ∧ (GitCmd.stashSave ∈ (runTxn cfgW none true true repoW).2 ↔ repoW.dirty = true)
    ∧ (GitCmd.stashPop ∈ (runTxn cfgW none true true repoW).2 ↔ repoW.dirty = true) :=
  claim_C1_amended cfgW none true true repoW (by decide) (by decide)

/-- C10: the configuration's resolved bot list
(`DepsRollConfig.cl_bot_list`) never contains an empty entry —
consecutive, leading or trailing commas are dropped by the
comprehension's `if bot` filter — the empty bots string yields an empty
list, and an empty bot list makes `__exit__` skip the `git cl try` step
entirely. -/
theorem claim_C10 (verbose save_branches skip_cl_upload : Bool) (bots : List Char)
    (set_branch_name : Option String) (bodyDirties bodyRaises : Bool) (r : GitRepo) :
    ([] ∉ (mkConfig verbose save_branches skip_cl_upload bots).cl_bot_list)
    ∧ clBotList [] = []
    ∧ ((mkConfig verbose save_branches skip_cl_upload bots).cl_bot_list = [] →
        GitCmd.clTry ∉ (runTxn (mkConfig verbose save_branches skip_cl_upload bots)
          set_branch_name bodyDirties bodyRaises r).2) := by
  refine ⟨?_, rfl, ?_⟩
  · intro hcon
    simp only [mkConfig, clBotList, List.mem_filter] at hcon
    exact absurd hcon.2 (by decide)
  · intro hempty
    rw [runTxn_eq, txnEnter_trace, txnExit_trace, txnEnter_txn]
    dsimp only
    cases r.dirty <;>
      by_cases hmem : set_branch_name.getD
          (mkConfig verbose save_branches skip_cl_upload bots).default_branch_name
          ∈ r.branches <;>
        by_cases hskip :
            (mkConfig verbose save_branches skip_cl_upload bots).skip_cl_upload <;>
          by_cases hdn :
              (mkConfig verbose save_branches skip_cl_upload bots).default_branch_name
              = set_branch_name.getD
                  (mkConfig verbose save_branches skip_cl_upload bots).default_branch_name <;>
            first
            | simp [hmem, hskip, hempty, ← hdn]
            | simp [hmem, hskip, hempty, hdn]

theorem claim_C10_witness :
    GitCmd.clTry ∉ (runTxn (mkConfig false false false []) none false false
      ⟨GitHead.branch masterS, [masterS], false, 0⟩).2 :=
  (claim_C10 false false false [] none false false
    ⟨GitHead.branch masterS, [masterS], false, 0⟩).2.2 (by decide)

/-! ## File-system effects of `change_skia_deps` (claims C5, C7)

The state tracks the DEPS file at `depspath` (content as lines, with
read/write permission bits) and the temporary file created by
`NamedTemporaryFile(delete=False)`.  `sameFS` records whether the
temporary directory is on the same filesystem as `depspath`, which
decides whether `shutil.move` is an `os.rename` (succeeds regardless of
the destination file's permission bits) or a `copy2`-and-unlink fallback
(opening the destination for writing fails with `IOError` when it is
not writable, and the temp file is then not removed). -/

structure DepsFile where
  lines : List (List Char)
  readable : Bool
  writable : Bool
deriving DecidableEq

structure DepsFS where
  orig : Option DepsFile
  temp : Option (List (List Char))
  sameFS : Bool
deriving DecidableEq

/-- `shutil.move(temp_file.name, depspath)` when the temp file holds the
fully rewritten content. -/
def shutil_move_deps (newLines : List (List Char)) (f : DepsFile) (fs : DepsFS) :
    Option PyErr × DepsFS :=
  if fs.sameFS then
    (none, { fs with orig := some { f with lines := newLines }, temp := none })
  else if f.writable then
    (none, { fs with orig := some { f with lines := newLines }, temp := none })
  else
    (some PyErr.ioError, { fs with temp := some newLines })

/-- `change_skia_deps` as a file-system transformer.  `failAt = some k`
models an IO failure while streaming the input after `k` lines were
written to the temp file; `none` models a failure-free read.  The first
component is the exception propagated out of the function, if any; the
`try/finally` only closes the temp file, so a failing rewrite leaves it
in place (`delete=False`), and `shutil.move` runs only after the loop
completed. -/
def change_skia_deps_fs (revision : Int) (git_hash : List Char)
    (failAt : Option Nat) (fs : DepsFS) : Option PyErr × DepsFS :=
  let fs1 : DepsFS := { fs with temp := some [] }
  match fs.orig with
  | none => (some PyErr.ioError, fs1)
  | some f =>
    if f.readable = false then (some PyErr.ioError, fs1)
    else
      match failAt with
      | some k =>
        if k < f.lines.length then
          (some PyErr.ioError,
            { fs1 with temp := some ((f.lines.take k).map (processLine revision git_hash)) })
        else
          shutil_move_deps (f.lines.map (processLine revision git_hash)) f
            { fs1 with temp := some (f.lines.map (processLine revision git_hash)) }
      | none =>
        shutil_move_deps (f.lines.map (processLine revision git_hash)) f
          { fs1 with temp := some (f.lines.map (processLine revision git_hash)) }

/-- C5, counterexample: a readable but non-writable manifest on the same
filesystem as the temporary directory is rewritten without any
`IOError`: `open(depspath, 'r')` never checks writability and
`os.rename` replaces a read-only destination, contradicting "fails with
IOError when the source path ... is not writable". -/
theorem claim_C5_counterexample :
    (change_skia_deps_fs 9 (("ab").data) none
        ⟨some ⟨[("x").data], true, false⟩, none, true⟩).1 = none := by
  decide

theorem shutil_move_deps_error_orig {newLines : List (List Char)} {f : DepsFile}
    {fs fs' : DepsFS} {e : PyErr}
    (heq : shutil_move_deps newLines f fs = (some e, fs')) : fs'.orig = fs.orig := by
  unfold shutil_move_deps at heq
  by_cases hsame : fs.sameFS
  · rw [if_pos hsame] at heq
    simp at heq
  · rw [if_neg hsame] at heq
    by_cases hw : f.writable
    · rw [if_pos hw] at heq
      simp at heq
    · rw [if_neg hw] at heq
      simp only [Prod.mk.injEq] at heq
      rw [← heq.2]

theorem shutil_move_deps_ok {newLines : List (List Char)} {f : DepsFile}
    {fs fs' : DepsFS}
    (heq : shutil_move_deps newLines f fs = (none, fs')) :
    fs'.temp = none ∧ fs'.orig = some { f with lines := newLines } := by
  unfold shutil_move_deps at heq
  by_cases hsame : fs.sameFS
  · rw [if_pos hsame] at heq
    simp only [Prod.mk.injEq] at heq
    rw [← heq.2]
    exact ⟨rfl, rfl⟩
  · rw [if_neg hsame] at heq
    by_cases hw : f.writable
    · rw [if_pos hw] at heq
      simp only [Prod.mk.injEq] at heq
      rw [← heq.2]
      exact ⟨rfl, rfl⟩
    · rw [if_neg hw] at heq
      simp at heq

theorem change_skia_deps_fs_error_orig {revision : Int} {git_hash : List Char}
    {failAt : Option Nat} {fs : DepsFS} {e : PyErr} {fs' : DepsFS}
    (heq : change_skia_deps_fs revision git_hash failAt fs = (some e, fs')) :
    fs'.orig = fs.orig := by
  unfold change_skia_deps_fs at heq
  cases horig : fs.orig with
  | none =>
    rw [horig] at heq
    dsimp only at heq
    simp only [Prod.mk.injEq] at heq
    rw [← heq.2]
  | some f =>
    rw [horig] at heq
    dsimp only at heq
    by_cases hread : f.readable = false
    · rw [if_pos hread] at heq
      simp only [Prod.mk.injEq] at heq
      rw [← heq.2]
    · rw [if_neg hread] at heq
      cases hfail : failAt with
      | some k =>
        rw [hfail] at heq
        dsimp only at heq
        by_cases hk : k < f.lines.length
        · rw [if_pos hk] at heq
          simp only [Prod.mk.injEq] at heq
          rw [← heq.2]
        · rw [if_neg hk] at heq
          rw [shutil_move_deps_error_orig heq]
      | none =>
        rw [hfail] at heq
        dsimp only at heq
        rw [shutil_move_deps_error_orig heq]

theorem change_skia_deps_fs_ok {revision : Int} {git_hash : List Char}
    {failAt : Option Nat} {fs : DepsFS} {fs' : DepsFS}
    (heq : change_skia_deps_fs revision git_hash failAt fs = (none, fs')) :
    fs'.temp = none
    ∧ ∃ f, fs.orig = some f
        ∧ fs'.orig = some { f with lines := f.lines.map (processLine revision git_hash) } := by
  unfold change_skia_deps_fs at heq
  cases horig : fs.orig with
  | none =>
    rw [horig] at heq
    dsimp only at heq
    simp at heq
  | some f =>
    rw [horig] at heq
    dsimp only at heq
    by_cases hread : f.readable = false
    · rw [if_pos hread] at heq
      simp at heq
    · rw [if_neg hread] at heq
      cases hfail : failAt with
      | some k =>
        rw [hfail] at heq
        dsimp only at heq
        by_cases hk : k < f.lines.length
        · rw [if_pos hk] at heq
          simp at heq
        · rw [if_neg hk] at heq
          obtain ⟨h1, h2⟩ := shutil_move_deps_ok heq
          exact ⟨h1, f, rfl, h2⟩
      | none =>
        rw [hfail] at heq
        dsimp only at heq
        obtain ⟨h1, h2⟩ := shutil_move_deps_ok heq
        exact ⟨h1, f, rfl, h2⟩

/-- C5, amended: the Manifest Editor writes to a fresh temporary file
and replaces the original path only after the full rewrite succeeded;
on any failure the file at the given path is unchanged (no half-written
file); it fails with `IOError` when the source path does not exist (or
is not readable).  A non-writable source is *not* detected by the
rewrite itself: the final `shutil.move` fails with `IOError` only in
the cross-filesystem copy fallback, while the same-filesystem rename
succeeds regardless of the destination's write permission (see the
counterexample). -/
theorem claim_C5_amended (revision : Int) (git_hash : List Char)
    (failAt : Option Nat) (fs : DepsFS) :
    (fs.orig = none →
        change_skia_deps_fs revision git_hash failAt fs
          = (some PyErr.ioError, { fs with temp := some [] }))
    ∧ (∀ e fs', change_skia_deps_fs revision git_hash failAt fs = (some e, fs') →
        fs'.orig = fs.orig)
    ∧ (∀ fs', change_skia_deps_fs revision git_hash failAt fs = (none, fs') →
        fs'.temp = none
        ∧ ∃ f, fs.orig = some f
            ∧ fs'.orig
              = some { f with lines := f.lines.map (processLine revision git_hash) }) := by
  refine ⟨?_, ?_, ?_⟩
  · intro hnone
    unfold change_skia_deps_fs
    rw [hnone]
  · intro e fs' heq
    exact change_skia_deps_fs_error_orig heq
  · intro fs' heq
    exact change_skia_deps_fs_ok heq

theorem claim_C5_witness :
    (change_skia_deps_fs 12345 (("00ff").data) none
        ⟨some ⟨[("  ").data ++ (revFieldL (("100").data) ++ [])], true, true⟩,
         none, true⟩).2.temp = none
    ∧ ∃ f, (some (⟨[("  ").data ++ (revFieldL (("100").data) ++ [])], true, true⟩ : DepsFile))
          = some f
        ∧ (change_skia_deps_fs 12345 (("00ff").data) none
            ⟨some ⟨[("  ").data ++ (revFieldL (("100").data) ++ [])], true, true⟩,
             none, true⟩).2.orig
          = some { f with lines := f.lines.map (processLine 12345 (("00ff").data)) } :=
  (claim_C5_amended 12345 (("00ff").data) none
      ⟨some ⟨[("  ").data ++ (revFieldL (("100").data) ++ [])], true, true⟩, none, true⟩).2.2
    (change_skia_deps_fs 12345 (("00ff").data) none
      ⟨some ⟨[("  ").data ++ (revFieldL (("100").data) ++ [])], true, true⟩, none, true⟩).2
    (by decide)

/-! ## Temporary clone cleanup in the Revision Locator (claim C7) -/

/-- `create_temp_skia_clone` as a directory-state transformer: `mkdtemp`
creates the directory; on clone failure the `except` handler removes it
(`shutil.rmtree`) and re-raises.  Returns the outcome and whether the
temporary clone directory exists afterwards. -/
def create_temp_skia_clone (cloneOk : Bool) : Option PyErr × Bool :=
  if cloneOk then (none, true) else (some PyErr.calledProcessError, false)

/-- The temporary-clone discipline of `find_revision_and_hash` when no
local Skia checkout is configured: obtain the clone (cleaning up itself
on failure), run the body (the git log / show-ref steps, which may
raise), and remove the directory in the `finally` whenever `use_temp`
was set.  Returns whether an exception propagated and whether the
temporary clone directory still exists. -/
def find_revision_and_hash_cleanup (cloneOk bodyOk : Bool) : Bool × Bool :=
  match create_temp_skia_clone cloneOk with
  | (some _, dirExists) => (true, dirExists)
  | (none, _) => (!bodyOk, false)

/-- C7, counterexample: when the rewrite fails partway through, the
temporary manifest file (`NamedTemporaryFile` with `delete=False`,
closed but never removed in the `finally`) is left behind, so the
temporary resource is not removed on every exit path. -/
theorem claim_C7_counterexample :
    (change_skia_deps_fs 9 (("ab").data) (some 0)
        ⟨some ⟨[("x").data], true, true⟩, none, true⟩).1 = some PyErr.ioError
    ∧ (change_skia_deps_fs 9 (("ab").data) (some 0)
        ⟨some ⟨[("x").data], true, true⟩, none, true⟩).2.temp ≠ none := by
  constructor
  · decide
  · decide

/-- C7, amended: the temporary shallow-clone directory of the Revision
Locator is removed on every exit path (clone failure, body failure, and
success); the temporary manifest file of the Manifest Editor is
consumed by the final move on success, but is left behind when the
rewrite fails (see the counterexample). -/
theorem claim_C7_amended (cloneOk bodyOk : Bool) (revision : Int)
    (git_hash : List Char) (failAt : Option Nat) (fs : DepsFS) :
    ((find_revision_and_hash_cleanup cloneOk bodyOk).2 = false)
    ∧ (∀ fs', change_skia_deps_fs revision git_hash failAt fs = (none, fs') →
        fs'.temp = none) := by
  constructor
  · cases cloneOk <;> rfl
  · intro fs' heq
    exact (change_skia_deps_fs_ok heq).1

theorem claim_C7_witness :
    (change_skia_deps_fs 9 (("ab").data) none
        ⟨some ⟨[("x").data], true, true⟩, none, true⟩).2.temp = none :=
  (claim_C7_amended true true 9 (("ab").data) none
      ⟨some ⟨[("x").data], true, true⟩, none, true⟩).2
    (change_skia_deps_fs 9 (("ab").data) none
      ⟨some ⟨[("x").data], true, true⟩, none, true⟩).2
    (by decide)

/-! ## `test_git_executable` and the validation phase of `main` (claim C9) -/

/-- `test_git_executable(git_executable)`: `subprocess.call` either
raises `OSError` (modelled as `none`: the executable is missing or not
runnable) or returns the process's exit status (modelled as
`some code`).  The source discards the status — only the `OSError`
handler returns `False`. -/
def test_git_executable (callResult : Option Int) : Bool :=
  match callResult with
  | none => false
  | some _ => true

inductive MainResult where
  | usage (message : String)
  | proceed
deriving DecidableEq

def emptyS : String := ""

def mustSpecifyS : String := "Must specify chromium_path."

def notDirS : String := "chromium_path must be a directory."

def invalidGitS : String := "Invalid git executable."

/-- `if not options.chromium_path`: the option is falsy when absent or
the empty string. -/
def chromiumPathMissing (chromium_path : Option String) : Bool :=
  match chromium_path with
  | none => true
  | some s => s == emptyS

/-- The argument-validation phase of `main`: the three
`option_parser.error` checks, in source order, run before any
repository mutation; `MainResult.proceed` marks reaching
`find_hash_and_roll_deps`, the first point at which any repository
state can change. -/
def main_checks (chromium_path : Option String) (isdir : Bool)
    (gitCallResult : Option Int) : MainResult :=
  if chromiumPathMissing chromium_path then MainResult.usage mustSpecifyS
  else if !isdir then MainResult.usage notDirS
  else if !(test_git_executable gitCallResult) then MainResult.usage invalidGitS
  else MainResult.proceed

def chromiumPathS : String := "/chromium"

/-- C9, counterexample: an executable whose `--version` self-test runs
but exits with status 1 — a failing self-test — still makes
`test_git_executable` return `True` (the exit status is discarded), and
`main` proceeds past its checks rather than exiting with a usage
error. -/
theorem claim_C9_counterexample :
    test_git_executable (some 1) = true
    ∧ main_checks (some chromiumPathS) true (some 1) = MainResult.proceed := by
  constructor
  · rfl
  · decide

/-- C9, amended: `main` exits with a usage error, before any repository
mutation, exactly when the consumer repository path is missing (or
empty) or is not a directory, or invoking the configured git executable
raises an OS-level error; `test_git_executable` returns `False` iff the
invocation raises `OSError` — a non-zero exit status of the self-test
is ignored and still yields `True` (see the counterexample). -/
theorem claim_C9_amended (chromium_path : Option String) (isdir : Bool)
    (gitCallResult : Option Int) :
    ((∃ m, main_checks chromium_path isdir gitCallResult = MainResult.usage m)
      ↔ (chromiumPathMissing chromium_path = true ∨ isdir = false
          ∨ gitCallResult = none))
    ∧ (test_git_executable gitCallResult = false ↔ gitCallResult = none) := by
  constructor
  · unfold main_checks
    by_cases hmiss : chromiumPathMissing chromium_path = true
    · rw [if_pos hmiss]
      exact ⟨fun _ => Or.inl hmiss, fun _ => ⟨mustSpecifyS, rfl⟩⟩
    · rw [if_neg hmiss]
      cases isdir with
      | false =>
        simp only [Bool.not_false, if_pos]
        exact ⟨fun _ => Or.inr (Or.inl trivial), fun _ => ⟨notDirS, rfl⟩⟩
      | true =>
        simp only [Bool.not_true, Bool.false_eq_true, if_false]
        cases gitCallResult with
        | none =>
          simp only [test_git_executable, Bool.not_false, if_pos]
          exact ⟨fun _ => Or.inr (Or.inr trivial), fun _ => ⟨invalidGitS, rfl⟩⟩
        | some code =>
          simp only [test_git_executable, Bool.not_true, Bool.false_eq_true, if_false]
          constructor
          · intro ⟨m, hm⟩
            cases hm
          · intro hor
            rcases hor with h | h | h
            · exact absurd h hmiss
            · cases h
            · cases h
  · cases gitCallResult with
    | none => exact ⟨fun _ => rfl, fun _ => rfl⟩
    | some code =>
      constructor
      · intro h; cases h
      · intro h; cases h

theorem claim_C9_amended_witness :
    ((∃ m, main_checks (some chromiumPathS) true none = MainResult.usage m)
      ↔ (chromiumPathMissing (some chromiumPathS) = true ∨ true = false
          ∨ (none : Option Int) = none))
    ∧ (test_git_executable none = false ↔ (none : Option Int) = none) :=
  claim_C9_amended (some chromiumPathS) true none

end RollDeps
